import Mathlib

/-!
# Verification of the battleware mempool and client event stream

Shallow embedding of `node/src/application/mempool.rs` (the `Mempool`
struct and its `add`/`retain`/`next` operations) and of the frame-processing
loop of `client/src/events.rs` (`Stream::new` / `Stream::new_with_verifier`),
together with proofs of the specified invariants and functional properties.

Modelling conventions:
* `PublicKey` is an abstract identifier, modelled as `Nat`.
* A `Transaction` carries its `public` key, `nonce` and an opaque `payload`
  (standing for the instruction and signature bytes).
* The 32-byte sha256 content digest is modelled as the transaction itself
  (`Digest := Transaction`, `digest := id`): the code relies only on the
  digest being a stable injective identifier of the transaction.
* `HashMap<Digest, Transaction>` keyed by the injective digest degenerates to
  a duplicate-free list of transactions (`transactions : List Transaction`).
* `HashMap<PublicKey, BTreeMap<u64, Digest>>` is an association list with
  duplicate-free keys whose values are `(nonce, digest)` lists kept strictly
  sorted by nonce (the `BTreeMap` order); `first_key_value`/`pop_first` act
  on the head, `pop_last` on the last element.
* `VecDeque<PublicKey>` is a list: `pop_front` takes the head, `push_back`
  appends.
* The Prometheus gauges are derived data (they are set to `|transactions|`
  and `|tracked|` after every operation) and are not part of the state.
-/

namespace Battleware

/-- The maximum number of transactions a single account can have in the
mempool (`MAX_BACKLOG` in `mempool.rs`). -/
def MAX_BACKLOG : Nat := 16

/-- The maximum number of transactions in the mempool (`MAX_TRANSACTIONS`
in `mempool.rs`). -/
def MAX_TRANSACTIONS : Nat := 32768

/-- An account public key (ed25519 `PublicKey` in the code), abstract. -/
abbrev PublicKey : Type := Nat

/-- A transaction: issuer public key, per-account nonce, and an opaque
payload standing for the instruction and signature. -/
structure Transaction where
  public : PublicKey
  nonce : Nat
  payload : Nat
deriving DecidableEq, Repr

/-- The sha256 content digest of a transaction, modelled injectively as the
transaction itself. -/
abbrev Digest : Type := Transaction

/-- `tx.digest()` in the code. -/
def Transaction.digest (tx : Transaction) : Digest := tx

/-- The per-account `BTreeMap<u64, Digest>`: a `(nonce, digest)` association
list kept strictly sorted by nonce. -/
abbrev NonceMap : Type := List (Nat × Digest)

/-- `BTreeMap::contains_key`: `k` is among the stored nonces. -/
def NonceMap.containsKey (bt : NonceMap) (k : Nat) : Prop :=
  k ∈ bt.map Prod.fst

instance (bt : NonceMap) (k : Nat) : Decidable (bt.containsKey k) := by
  unfold NonceMap.containsKey; infer_instance

/-- `BTreeMap::insert` on the sorted-list representation: place `(k, v)` at
its sorted position (replacing an existing binding of `k`, as the `BTreeMap`
would; the mempool only ever inserts fresh keys). -/
def NonceMap.insertSorted (k : Nat) (v : Digest) : NonceMap → NonceMap
  | [] => [(k, v)]
  | (k', v') :: rest =>
    if k < k' then (k, v) :: (k', v') :: rest
    else if k = k' then (k, v) :: rest
    else (k', v') :: NonceMap.insertSorted k v rest

/-- The `tracked` index `HashMap<PublicKey, BTreeMap<u64, Digest>>`: an
association list with duplicate-free keys. -/
abbrev Tracked : Type := List (PublicKey × NonceMap)

/-- `HashMap::get` on `tracked`. -/
def Tracked.lookup : Tracked → PublicKey → Option NonceMap
  | [], _ => none
  | (q, bt) :: rest, p => if q = p then some bt else Tracked.lookup rest p

/-- Write back the (mutated in place in Rust) per-account map of key `p`;
if `p` is absent this inserts it, as `HashMap::entry(..).or_default()` does. -/
def Tracked.setEntry : Tracked → PublicKey → NonceMap → Tracked
  | [], p, bt => [(p, bt)]
  | (q, btq) :: rest, p, bt =>
    if q = p then (p, bt) :: rest else (q, btq) :: Tracked.setEntry rest p bt

/-- `HashMap::remove` on `tracked`. -/
def Tracked.removeEntry : Tracked → PublicKey → Tracked
  | [], _ => []
  | (q, bt) :: rest, p =>
    if q = p then rest else (q, bt) :: Tracked.removeEntry rest p

/-- The mempool state (`Mempool` minus the gauges, which are derived). -/
structure Mempool where
  transactions : List Transaction
  tracked : Tracked
  queue : List PublicKey
deriving DecidableEq, Repr

/-- `Mempool::new` (the state part). -/
def Mempool.empty : Mempool := ⟨[], [], []⟩

/-- `Mempool::add`. Mirrors the Rust control flow: capacity check, duplicate
digest check, same-nonce check, insertion into both indices, backlog
eviction of the highest nonce, and the queue push when this was the
account's first entry. -/
def Mempool.add (m : Mempool) (tx : Transaction) : Mempool :=
  -- If there are too many transactions, ignore
  if MAX_TRANSACTIONS ≤ m.transactions.length then m
  -- If we already have a transaction with this digest, we don't need to track it
  else if tx.digest ∈ m.transactions then m
  else
    -- `self.tracked.entry(public).or_default()`
    let bt := (m.tracked.lookup tx.public).getD []
    -- If there already exists a transaction at some nonce, return
    if bt.containsKey tx.nonce then m
    else
      -- Insert the transaction into the mempool
      let bt1 := NonceMap.insertSorted tx.nonce tx.digest bt
      let txs1 := tx :: m.transactions
      let entries := bt1.length
      -- If there are too many transactions, remove the furthest in the future
      let evicted :=
        if MAX_BACKLOG < entries then
          match bt1.getLast? with
          | some nd => (bt1.dropLast, txs1.erase nd.2)
          | none => (bt1, txs1) -- unreachable: `bt1` is never empty
        else (bt1, txs1)
      -- Add to queue if this is the first entry
      let q := if entries = 1 then m.queue ++ [tx.public] else m.queue
      ⟨evicted.2, m.tracked.setEntry tx.public evicted.1, q⟩

/-- The `loop` inside `Mempool::retain`: peel entries with nonce below `min`
from the front of the sorted per-account map, erasing each digest from
`transactions`; the returned flag is the `remove` flag (`true` iff the map
was exhausted). -/
def retainLoop (min : Nat) : NonceMap → List Transaction →
    NonceMap × List Transaction × Bool
  | [], txs => ([], txs, true)
  | (n, d) :: rest, txs =>
    if min ≤ n then ((n, d) :: rest, txs, false)
    else retainLoop min rest (txs.erase d)

/-- `Mempool::retain`. -/
def Mempool.retain (m : Mempool) (p : PublicKey) (min : Nat) : Mempool :=
  match m.tracked.lookup p with
  | none => m
  | some bt =>
    let r := retainLoop min bt m.transactions
    if r.2.2 then ⟨r.2.1, m.tracked.removeEntry p, m.queue⟩
    else ⟨r.2.1, m.tracked.setEntry p r.1, m.queue⟩

/-- The `loop` inside `Mempool::next`, structurally recursive on the queue.
`none` models the `unwrap` panic on `transactions.remove(&digest)` (proved
unreachable from reachable states); `some (r, txs, tr, q)` is the normal
result: the drained transaction (if any) and the new state components. -/
def nextLoop : List PublicKey → Tracked → List Transaction →
    Option (Option Transaction × List Transaction × Tracked × List PublicKey)
  | [], tr, txs => some (none, txs, tr, [])
  | a :: q, tr, txs =>
    match tr.lookup a with
    | none =>
      -- We don't prune the queue when we drop a transaction: skip
      nextLoop q tr txs
    | some bt =>
      match bt with
      | [] => nextLoop q tr txs -- `pop_first` returned `None`
      | (_, d) :: btRest =>
        -- If the address still has transactions, rotate; else drop it
        let tr' := if btRest.isEmpty then tr.removeEntry a
                   else tr.setEntry a btRest
        let q' := if btRest.isEmpty then q else q ++ [a]
        -- `self.transactions.remove(&digest).unwrap()`
        if d ∈ txs then some (some d, txs.erase d, tr', q')
        else none

/-- `Mempool::next`: `none` is the unreachable panic, `some (r, m')` the
returned option and the post-state. -/
def Mempool.next (m : Mempool) : Option (Option Transaction × Mempool) :=
  (nextLoop m.queue m.tracked m.transactions).map
    (fun r => (r.1, ⟨r.2.1, r.2.2.1, r.2.2.2⟩))

/-- One mempool operation. -/
inductive Op where
  | add (tx : Transaction)
  | retain (p : PublicKey) (min : Nat)
  | next
deriving DecidableEq, Repr

/-- Apply one operation (a panicking `next`, which never occurs from
reachable states, is taken to leave the state unchanged). -/
def Mempool.step (m : Mempool) : Op → Mempool
  | .add tx => m.add tx
  | .retain p min => m.retain p min
  | .next =>
    match m.next with
    | some r => r.2
    | none => m

/-- Run a sequence of operations from a state. -/
def Mempool.run (m : Mempool) (ops : List Op) : Mempool :=
  ops.foldl Mempool.step m

/-- A mempool state reachable from the empty mempool by some sequence of
`add`/`retain`/`next` operations. -/
def Reachable (m : Mempool) : Prop :=
  ∃ ops : List Op, Mempool.empty.run ops = m

/-!
## The client event stream (`client/src/events.rs`)

The reader task of `Stream::new` / `Stream::new_with_verifier` is a loop
over the inbound WebSocket frames that pushes items into a FIFO channel and
breaks on close frames and transport errors. Viewed as a function from the
(finite) sequence of inbound frames to the sequence of items delivered to
the consumer, it is the fold below. `T` is the generic decoded event type,
`decode` models `T::read` on a frame payload `D` (`none` is a decode
failure), and `verify` models the `Verifiable` capability.
-/

/-- One inbound transport frame, as the reader loop distinguishes them:
`Message::Binary`, `Message::Close`, any other `Ok` message (text, ping,
pong, ...), or a transport-level `Err`. -/
inductive Frame (D : Type) where
  | binary (data : D)
  | close
  | other
  | transportError
deriving DecidableEq, Repr

/-- One item delivered to the consumer: `Ok(event)` or one of the `Error`
variants sent on the channel. -/
inductive Item (T : Type) where
  | ok (event : T)
  | invalidData
  | invalidSignature
  | connectionClosed
  | transport
deriving DecidableEq, Repr

/-- Terminal items: those after which the reader loop `break`s. -/
def Item.isTerminal {T : Type} : Item T → Bool
  | .connectionClosed => true
  | .transport => true
  | _ => false

/-- The reader loop of `Stream::new` (unverified mode) as a function from
the inbound frame sequence to the delivered item sequence. -/
def processFrames {D T : Type} (decode : D → Option T) :
    List (Frame D) → List (Item T)
  | [] => []
  | .binary d :: rest =>
    match decode d with
    | some e => .ok e :: processFrames decode rest
    | none => .invalidData :: processFrames decode rest
  | .close :: _ => [.connectionClosed]
  | .other :: rest => processFrames decode rest
  | .transportError :: _ => [.transport]

/-- The reader loop of `Stream::new_with_verifier` (verified mode): each
successfully decoded event is checked with `verify`; a `false` result
yields `InvalidSignature` and the loop continues. -/
def processFramesVerified {D T : Type} (decode : D → Option T)
    (verify : T → Bool) : List (Frame D) → List (Item T)
  | [] => []
  | .binary d :: rest =>
    match decode d with
    | some e =>
      if verify e then .ok e :: processFramesVerified decode verify rest
      else .invalidSignature :: processFramesVerified decode verify rest
    | none => .invalidData :: processFramesVerified decode verify rest
  | .close :: _ => [.connectionClosed]
  | .other :: rest => processFramesVerified decode verify rest
  | .transportError :: _ => [.transport]

/-!
## Library: the sorted nonce map
-/

/-- The strict nonce order on entries of a `NonceMap`. -/
def nlt (a b : Nat × Digest) : Prop := a.1 < b.1

theorem NonceMap.not_containsKey_iff {bt : NonceMap} {k : Nat} :
    ¬ bt.containsKey k ↔ ∀ nd ∈ bt, nd.1 ≠ k := by
  unfold NonceMap.containsKey
  rw [List.mem_map]
  push_neg
  exact Iff.rfl

theorem NonceMap.insertSorted_ne_nil (k : Nat) (v : Digest) (bt : NonceMap) :
    NonceMap.insertSorted k v bt ≠ [] := by
  cases bt with
  | nil => simp [NonceMap.insertSorted]
  | cons hd tl =>
    simp only [NonceMap.insertSorted]
    split
    · simp
    · split <;> simp

theorem NonceMap.insertSorted_perm {bt : NonceMap} {k : Nat} (v : Digest)
    (h : ¬ bt.containsKey k) :
    (NonceMap.insertSorted k v bt).Perm ((k, v) :: bt) := by
  induction bt with
  | nil => simp [NonceMap.insertSorted]
  | cons hd tl ih =>
    have hne : hd.1 ≠ k := NonceMap.not_containsKey_iff.1 h hd (by simp)
    have htl : ¬ NonceMap.containsKey tl k := by
      intro hc
      rcases List.mem_map.1 hc with ⟨nd, hnd, hk⟩
      exact NonceMap.not_containsKey_iff.1 h nd (List.mem_cons_of_mem _ hnd) hk
    simp only [NonceMap.insertSorted]
    split
    · exact List.Perm.refl _
    · rw [if_neg (fun hkk => hne hkk.symm)]
      exact List.Perm.trans ((ih htl).cons hd) (List.Perm.swap _ _ _)

theorem NonceMap.length_insertSorted {bt : NonceMap} {k : Nat} (v : Digest)
    (h : ¬ bt.containsKey k) :
    (NonceMap.insertSorted k v bt).length = bt.length + 1 :=
  (NonceMap.insertSorted_perm v h).length_eq

theorem NonceMap.insertSorted_sorted {bt : NonceMap} {k : Nat} (v : Digest)
    (hs : List.Pairwise nlt bt) (h : ¬ bt.containsKey k) :
    List.Pairwise nlt (NonceMap.insertSorted k v bt) := by
  induction bt with
  | nil => simp [NonceMap.insertSorted, nlt]
  | cons hd tl ih =>
    have hne : hd.1 ≠ k := NonceMap.not_containsKey_iff.1 h hd (by simp)
    have htl : ¬ NonceMap.containsKey tl k := by
      intro hc
      rcases List.mem_map.1 hc with ⟨nd, hnd, hk⟩
      exact NonceMap.not_containsKey_iff.1 h nd (List.mem_cons_of_mem _ hnd) hk
    rcases List.pairwise_cons.1 hs with ⟨hhd, htls⟩
    simp only [NonceMap.insertSorted]
    split
    · rename_i hlt
      refine List.pairwise_cons.2 ⟨?_, hs⟩
      intro nd hnd
      rcases List.mem_cons.1 hnd with h1 | h1
      · rw [h1]; exact hlt
      · exact lt_trans hlt (hhd nd h1)
    · rw [if_neg (fun hkk => hne hkk.symm)]
      rename_i hnlt
      have hk : hd.1 < k := by omega
      refine List.pairwise_cons.2 ⟨?_, ih htls htl⟩
      intro nd hnd
      have hm : nd ∈ (k, v) :: tl :=
        (NonceMap.insertSorted_perm v htl).mem_iff.1 hnd
      rcases List.mem_cons.1 hm with h1 | h1
      · rw [h1]; exact hk
      · exact hhd nd h1

/-!
## Library: the tracked association list
-/

theorem Tracked.lookup_eq_none {t : Tracked} {p : PublicKey} :
    t.lookup p = none ↔ p ∉ t.map Prod.fst := by
  induction t with
  | nil => simp [Tracked.lookup]
  | cons hd tl ih =>
    obtain ⟨q, bt⟩ := hd
    by_cases hq : q = p
    · subst hq
      simp [Tracked.lookup]
    · simp [Tracked.lookup, hq, ih, Ne.symm hq]

theorem Tracked.lookup_mem {t : Tracked} {p : PublicKey} {bt : NonceMap}
    (h : t.lookup p = some bt) : (p, bt) ∈ t := by
  induction t with
  | nil => simp [Tracked.lookup] at h
  | cons hd tl ih =>
    obtain ⟨q, btq⟩ := hd
    by_cases hq : q = p
    · subst hq
      simp [Tracked.lookup] at h
      subst h
      exact List.mem_cons_self _ _
    · simp only [Tracked.lookup, if_neg hq] at h
      exact List.mem_cons_of_mem _ (ih h)

theorem Tracked.mem_lookup {t : Tracked} {p : PublicKey} {bt : NonceMap}
    (hnd : (t.map Prod.fst).Nodup) (h : (p, bt) ∈ t) :
    t.lookup p = some bt := by
  induction t with
  | nil => simp at h
  | cons hd tl ih =>
    obtain ⟨q, btq⟩ := hd
    simp only [List.map_cons, List.nodup_cons] at hnd
    rcases List.mem_cons.1 h with h1 | h1
    · injection h1.symm with hq hbt
      subst hq; subst hbt
      simp [Tracked.lookup]
    · have hq : q ≠ p := by
        intro hqp; subst hqp
        exact hnd.1 (List.mem_map.2 ⟨(q, bt), h1, rfl⟩)
      simp only [Tracked.lookup, if_neg hq]
      exact ih hnd.2 h1

theorem Tracked.setEntry_eq_append {t : Tracked} {p : PublicKey}
    (bt : NonceMap) (h : p ∉ t.map Prod.fst) :
    t.setEntry p bt = t ++ [(p, bt)] := by
  induction t with
  | nil => simp [Tracked.setEntry]
  | cons hd tl ih =>
    obtain ⟨q, btq⟩ := hd
    simp only [List.map_cons, List.mem_cons, not_or] at h
    have hq : q ≠ p := fun hqp => h.1 hqp.symm
    simp [Tracked.setEntry, hq, ih h.2]

theorem Tracked.removeEntry_eq_self {t : Tracked} {p : PublicKey}
    (h : p ∉ t.map Prod.fst) : t.removeEntry p = t := by
  induction t with
  | nil => simp [Tracked.removeEntry]
  | cons hd tl ih =>
    obtain ⟨q, btq⟩ := hd
    simp only [List.map_cons, List.mem_cons, not_or] at h
    have hq : q ≠ p := fun hqp => h.1 hqp.symm
    simp [Tracked.removeEntry, hq, ih h.2]

theorem Tracked.perm_removeEntry {t : Tracked} {p : PublicKey} {bt : NonceMap}
    (hnd : (t.map Prod.fst).Nodup) (h : (p, bt) ∈ t) :
    t.Perm ((p, bt) :: t.removeEntry p) := by
  induction t with
  | nil => simp at h
  | cons hd tl ih =>
    obtain ⟨q, btq⟩ := hd
    simp only [List.map_cons, List.nodup_cons] at hnd
    rcases List.mem_cons.1 h with h1 | h1
    · injection h1.symm with hq hbt
      subst hq; subst hbt
      simp [Tracked.removeEntry]
    · have hq : q ≠ p := by
        intro hqp; subst hqp
        exact hnd.1 (List.mem_map.2 ⟨(q, bt), h1, rfl⟩)
      simp only [Tracked.removeEntry, if_neg hq]
      exact List.Perm.trans ((ih hnd.2 h1).cons _) (List.Perm.swap _ _ _)

theorem Tracked.setEntry_perm {t : Tracked} {p : PublicKey} {bt : NonceMap}
    (bt' : NonceMap) (hnd : (t.map Prod.fst).Nodup) (h : (p, bt) ∈ t) :
    (t.setEntry p bt').Perm ((p, bt') :: t.removeEntry p) := by
  induction t with
  | nil => simp at h
  | cons hd tl ih =>
    obtain ⟨q, btq⟩ := hd
    simp only [List.map_cons, List.nodup_cons] at hnd
    rcases List.mem_cons.1 h with h1 | h1
    · injection h1.symm with hq hbt
      subst hq
      simp [Tracked.setEntry, Tracked.removeEntry]
    · have hq : q ≠ p := by
        intro hqp; subst hqp
        exact hnd.1 (List.mem_map.2 ⟨(q, bt), h1, rfl⟩)
      simp only [Tracked.setEntry, Tracked.removeEntry, if_neg hq]
      exact List.Perm.trans ((ih hnd.2 h1).cons _) (List.Perm.swap _ _ _)

theorem Tracked.lookup_setEntry_self (t : Tracked) (p : PublicKey)
    (bt : NonceMap) : (t.setEntry p bt).lookup p = some bt := by
  induction t with
  | nil => simp [Tracked.setEntry, Tracked.lookup]
  | cons hd tl ih =>
    obtain ⟨q, btq⟩ := hd
    by_cases hq : q = p
    · subst hq; simp [Tracked.setEntry, Tracked.lookup]
    · simp [Tracked.setEntry, Tracked.lookup, hq, ih]

theorem Tracked.lookup_setEntry_ne {t : Tracked} {p q : PublicKey}
    (bt : NonceMap) (h : q ≠ p) :
    (t.setEntry p bt).lookup q = t.lookup q := by
  induction t with
  | nil => simp [Tracked.setEntry, Tracked.lookup, Ne.symm h]
  | cons hd tl ih =>
    obtain ⟨r, btr⟩ := hd
    by_cases hr : r = p
    · subst hr
      simp [Tracked.setEntry, Tracked.lookup, Ne.symm h]
    · simp [Tracked.setEntry, Tracked.lookup, hr, ih]

theorem Tracked.lookup_removeEntry_self {t : Tracked} {p : PublicKey}
    (hnd : (t.map Prod.fst).Nodup) : (t.removeEntry p).lookup p = none := by
  induction t with
  | nil => simp [Tracked.removeEntry, Tracked.lookup]
  | cons hd tl ih =>
    obtain ⟨q, btq⟩ := hd
    simp only [List.map_cons, List.nodup_cons] at hnd
    by_cases hq : q = p
    · subst hq
      simp only [Tracked.removeEntry, if_pos rfl]
      rw [Tracked.lookup_eq_none]
      exact hnd.1
    · simp [Tracked.removeEntry, Tracked.lookup, hq, ih hnd.2]

theorem Tracked.lookup_removeEntry_ne {t : Tracked} {p q : PublicKey}
    (h : q ≠ p) : (t.removeEntry p).lookup q = t.lookup q := by
  induction t with
  | nil => simp [Tracked.removeEntry]
  | cons hd tl ih =>
    obtain ⟨r, btr⟩ := hd
    by_cases hr : r = p
    · subst hr
      simp [Tracked.removeEntry, Tracked.lookup, Ne.symm h]
    · simp [Tracked.removeEntry, Tracked.lookup, hr, ih]

theorem Tracked.keys_setEntry_present {t : Tracked} {p : PublicKey}
    (bt : NonceMap) (h : p ∈ t.map Prod.fst) :
    (t.setEntry p bt).map Prod.fst = t.map Prod.fst := by
  induction t with
  | nil => simp at h
  | cons hd tl ih =>
    obtain ⟨q, btq⟩ := hd
    by_cases hq : q = p
    · subst hq; simp [Tracked.setEntry]
    · simp only [List.map_cons, List.mem_cons] at h
      rcases h with h1 | h1
      · exact absurd h1.symm hq
      · simp [Tracked.setEntry, hq, ih h1]

theorem Tracked.keys_removeEntry {t : Tracked} {p : PublicKey}
    (hnd : (t.map Prod.fst).Nodup) :
    ((t.removeEntry p).map Prod.fst).Nodup ∧
      ∀ q, q ∈ (t.removeEntry p).map Prod.fst ↔
        q ∈ t.map Prod.fst ∧ q ≠ p := by
  induction t with
  | nil => simp [Tracked.removeEntry]
  | cons hd tl ih =>
    obtain ⟨q, btq⟩ := hd
    simp only [List.map_cons, List.nodup_cons] at hnd
    by_cases hq : q = p
    · subst hq
      simp only [Tracked.removeEntry, if_pos rfl]
      refine ⟨hnd.2, fun r => ?_⟩
      constructor
      · intro hr
        exact ⟨List.mem_cons_of_mem _ hr, fun hrq => hnd.1 (hrq ▸ hr)⟩
      · rintro ⟨hr, hrq⟩
        rcases List.mem_cons.1 hr with h1 | h1
        · exact absurd h1 hrq
        · exact h1
    · simp only [Tracked.removeEntry, if_neg hq, List.map_cons]
      rcases ih hnd.2 with ⟨ihnd, ihmem⟩
      refine ⟨List.nodup_cons.2 ⟨fun hmem => hnd.1 ((ihmem q).1 hmem).1, ihnd⟩,
        fun r => ?_⟩
      simp only [List.mem_cons, ihmem]
      constructor
      · rintro (h1 | ⟨h1, h2⟩)
        · exact ⟨Or.inl h1, h1 ▸ hq⟩
        · exact ⟨Or.inr h1, h2⟩
      · rintro ⟨h1 | h1, h2⟩
        · exact Or.inl h1
        · exact Or.inr ⟨h1, h2⟩

/-!
## Library: the multiset of tracked digests
-/

/-- All digests stored in the per-account index, flattened. -/
def allTxs : Tracked → List Transaction
  | [] => []
  | pb :: t => pb.2.map Prod.snd ++ allTxs t

theorem allTxs_nil : allTxs [] = [] := rfl

theorem allTxs_cons (pb : PublicKey × NonceMap) (t : Tracked) :
    allTxs (pb :: t) = pb.2.map Prod.snd ++ allTxs t := rfl

theorem allTxs_append (t₁ t₂ : Tracked) :
    allTxs (t₁ ++ t₂) = allTxs t₁ ++ allTxs t₂ := by
  induction t₁ with
  | nil => simp [allTxs]
  | cons hd tl ih => simp [allTxs, ih]

theorem allTxs_perm {t₁ t₂ : Tracked} (h : t₁.Perm t₂) :
    (allTxs t₁).Perm (allTxs t₂) := by
  induction h with
  | nil => exact List.Perm.refl _
  | cons pb _ ih => exact ih.append_left _
  | swap pb₁ pb₂ t =>
    simp only [allTxs_cons, ← List.append_assoc]
    exact (List.perm_append_comm).append_right _
  | trans _ _ ih₁ ih₂ => exact ih₁.trans ih₂

theorem mem_allTxs {d : Transaction} {t : Tracked} :
    d ∈ allTxs t ↔ ∃ pb ∈ t, ∃ n, (n, d) ∈ pb.2 := by
  induction t with
  | nil => simp [allTxs]
  | cons hd tl ih =>
    simp only [allTxs_cons, List.mem_append, List.mem_map, ih, List.mem_cons]
    constructor
    · rintro (⟨nd, hnd, hd2⟩ | ⟨pb, hpb, n, hn⟩)
      · exact ⟨hd, Or.inl rfl, nd.1, by rwa [show (nd.1, d) = nd from by
          rw [← hd2]]⟩
      · exact ⟨pb, Or.inr hpb, n, hn⟩
    · rintro ⟨pb, hpb | hpb, n, hn⟩
      · exact Or.inl ⟨(n, d), hpb ▸ hn, rfl⟩
      · exact Or.inr ⟨pb, hpb, n, hn⟩

theorem length_allTxs (t : Tracked) :
    (allTxs t).length = (t.map (fun pb => pb.2.length)).sum := by
  induction t with
  | nil => simp [allTxs]
  | cons hd tl ih => simp [allTxs, ih]

theorem allTxs_eq_flatten (t : Tracked) :
    allTxs t = (t.map (fun pb => pb.2.map Prod.snd)).flatten := by
  induction t with
  | nil => rfl
  | cons hd tl ih => simp [allTxs, ih]

/-!
## The mempool state invariant
-/

/-- The invariant maintained by every `add`/`retain`/`next` operation,
stated over the three state components: duplicate-free account keys;
per-account maps strictly sorted by nonce, never stored empty, bounded by
`MAX_BACKLOG`, and containing only digests of transactions of that account
at that nonce; the primary map is (up to permutation) exactly the flattened
per-account index; the global bound; and every tracked account key occurs
in the drain queue. -/
structure InvC (txs : List Transaction) (tr : Tracked) (q : List PublicKey) :
    Prop where
  keysNodup : (tr.map Prod.fst).Nodup
  sorted : ∀ pb ∈ tr, List.Pairwise nlt pb.2
  nonempty : ∀ pb ∈ tr, pb.2 ≠ []
  backlog : ∀ pb ∈ tr, pb.2.length ≤ MAX_BACKLOG
  owner : ∀ pb ∈ tr, ∀ nd ∈ pb.2, nd.2.public = pb.1 ∧ nd.2.nonce = nd.1
  perm : txs.Perm (allTxs tr)
  capacity : txs.length ≤ MAX_TRANSACTIONS
  queued : ∀ pb ∈ tr, pb.1 ∈ q

/-- The invariant of a mempool state. -/
abbrev Inv (m : Mempool) : Prop := InvC m.transactions m.tracked m.queue

theorem snd_nodup_of_sorted {bt : NonceMap} (hs : List.Pairwise nlt bt)
    (ho : ∀ nd ∈ bt, nd.2.nonce = nd.1) : (bt.map Prod.snd).Nodup := by
  rw [List.Nodup, List.pairwise_map]
  refine hs.imp_of_mem ?_
  intro a b ha hb hab hsnd
  have hlt : a.1 < b.1 := hab
  have h1 : a.2.nonce = a.1 := ho a ha
  have h2 : b.2.nonce = b.1 := ho b hb
  rw [hsnd, h2] at h1
  omega

theorem Inv.allTxs_nodup {m : Mempool} (h : Inv m) :
    (allTxs m.tracked).Nodup := by
  rw [allTxs_eq_flatten, List.nodup_flatten]
  constructor
  · intro l hl
    rcases List.mem_map.1 hl with ⟨pb, hpb, rfl⟩
    exact snd_nodup_of_sorted (h.sorted pb hpb)
      (fun nd hnd => (h.owner pb hpb nd hnd).2)
  · rw [List.pairwise_map]
    have hkeys : List.Pairwise (fun a b : PublicKey × NonceMap => a.1 ≠ b.1)
        m.tracked := List.pairwise_map.1 h.keysNodup
    refine hkeys.imp_of_mem ?_
    intro a b ha hb hab
    intro d hda hdb
    rcases List.mem_map.1 hda with ⟨nda, hnda, hda2⟩
    rcases List.mem_map.1 hdb with ⟨ndb, hndb, hdb2⟩
    have h1 : nda.2.public = a.1 := (h.owner a ha nda hnda).1
    have h2 : ndb.2.public = b.1 := (h.owner b hb ndb hndb).1
    rw [hda2] at h1
    rw [hdb2] at h2
    exact hab (h1 ▸ h2 ▸ rfl)

theorem Inv.txs_nodup {m : Mempool} (h : Inv m) : m.transactions.Nodup :=
  h.perm.nodup_iff.2 h.allTxs_nodup

/-- Membership in the primary map is membership of the digest in its
account's per-account map at its own nonce. -/
theorem Inv.mem_transactions {m : Mempool} (h : Inv m) {d : Transaction} :
    d ∈ m.transactions ↔
      ∃ bt, m.tracked.lookup d.public = some bt ∧ (d.nonce, d) ∈ bt := by
  rw [h.perm.mem_iff, mem_allTxs]
  constructor
  · rintro ⟨pb, hpb, n, hn⟩
    have ho := h.owner pb hpb (n, d) hn
    have h1 : d.public = pb.1 := ho.1
    have h2 : d.nonce = n := ho.2
    refine ⟨pb.2, ?_, ?_⟩
    · rw [h1]
      exact Tracked.mem_lookup h.keysNodup (by rw [Prod.mk.eta]; exact hpb)
    · rw [h2]
      exact hn
  · rintro ⟨bt, hbt, hn⟩
    exact ⟨(d.public, bt), Tracked.lookup_mem hbt, d.nonce, hn⟩

/-!
## Characterization of `add`
-/

theorem add_eq_of_cap {m : Mempool} (tx : Transaction)
    (hcap : MAX_TRANSACTIONS ≤ m.transactions.length) : m.add tx = m := by
  simp [Mempool.add, hcap]

theorem add_eq_of_dup {m : Mempool} {tx : Transaction}
    (hcap : ¬ MAX_TRANSACTIONS ≤ m.transactions.length)
    (hdup : tx ∈ m.transactions) : m.add tx = m := by
  simp [Mempool.add, hcap, Transaction.digest, hdup]

theorem add_eq_of_nonce {m : Mempool} {tx : Transaction}
    (hcap : ¬ MAX_TRANSACTIONS ≤ m.transactions.length)
    (hdup : tx ∉ m.transactions)
    (hnonce : ((m.tracked.lookup tx.public).getD []).containsKey tx.nonce) :
    m.add tx = m := by
  simp [Mempool.add, hcap, Transaction.digest, hdup, hnonce]

theorem add_eq_insert {m : Mempool} {tx : Transaction}
    (hcap : ¬ MAX_TRANSACTIONS ≤ m.transactions.length)
    (hdup : tx ∉ m.transactions)
    (hnonce : ¬ ((m.tracked.lookup tx.public).getD []).containsKey tx.nonce)
    (hlen : (NonceMap.insertSorted tx.nonce tx.digest
      ((m.tracked.lookup tx.public).getD [])).length ≤ MAX_BACKLOG) :
    m.add tx =
      ⟨tx :: m.transactions,
       m.tracked.setEntry tx.public (NonceMap.insertSorted tx.nonce tx.digest
         ((m.tracked.lookup tx.public).getD [])),
       if (NonceMap.insertSorted tx.nonce tx.digest
           ((m.tracked.lookup tx.public).getD [])).length = 1
       then m.queue ++ [tx.public] else m.queue⟩ := by
  rw [Mempool.add]
  rw [if_neg hcap, if_neg (by simpa [Transaction.digest] using hdup),
    if_neg hnonce]
  simp only [if_neg (Nat.not_lt.2 hlen)]

theorem add_eq_evict {m : Mempool} {tx : Transaction} {nd : Nat × Digest}
    (hcap : ¬ MAX_TRANSACTIONS ≤ m.transactions.length)
    (hdup : tx ∉ m.transactions)
    (hnonce : ¬ ((m.tracked.lookup tx.public).getD []).containsKey tx.nonce)
    (hlen : MAX_BACKLOG < (NonceMap.insertSorted tx.nonce tx.digest
      ((m.tracked.lookup tx.public).getD [])).length)
    (hlast : (NonceMap.insertSorted tx.nonce tx.digest
      ((m.tracked.lookup tx.public).getD [])).getLast? = some nd) :
    m.add tx =
      ⟨(tx :: m.transactions).erase nd.2,
       m.tracked.setEntry tx.public (NonceMap.insertSorted tx.nonce tx.digest
         ((m.tracked.lookup tx.public).getD [])).dropLast,
       m.queue⟩ := by
  rw [Mempool.add]
  rw [if_neg hcap, if_neg (by simpa [Transaction.digest] using hdup),
    if_neg hnonce]
  simp only [if_pos hlen, hlast]
  rw [if_neg (by simp only [MAX_BACKLOG] at hlen; omega :
    ¬ (NonceMap.insertSorted tx.nonce tx.digest
      ((m.tracked.lookup tx.public).getD [])).length = 1)]

/-!
## Preservation of the invariant
-/

theorem inv_empty : Inv Mempool.empty := by
  constructor <;> simp [Mempool.empty, allTxs, MAX_TRANSACTIONS]

theorem Tracked.mem_removeEntry_sub {t : Tracked} {p : PublicKey}
    {x : PublicKey × NonceMap} (hx : x ∈ t.removeEntry p) : x ∈ t := by
  induction t with
  | nil => simp [Tracked.removeEntry] at hx
  | cons hd tl ih =>
    obtain ⟨q, btq⟩ := hd
    by_cases hq : q = p
    · subst hq
      simp only [Tracked.removeEntry, if_pos rfl] at hx
      exact List.mem_cons_of_mem _ hx
    · simp only [Tracked.removeEntry, if_neg hq] at hx
      rcases List.mem_cons.1 hx with h1 | h1
      · exact h1 ▸ List.mem_cons_self _ _
      · exact List.mem_cons_of_mem _ (ih h1)

theorem Tracked.mem_setEntry_sub {t : Tracked} {p : PublicKey} {bt' : NonceMap}
    {pb : PublicKey × NonceMap} (h : pb ∈ t.setEntry p bt') :
    pb = (p, bt') ∨ pb ∈ t := by
  induction t with
  | nil => simpa [Tracked.setEntry] using h
  | cons hd tl ih =>
    obtain ⟨q, btq⟩ := hd
    by_cases hq : q = p
    · subst hq
      simp only [Tracked.setEntry, if_pos rfl] at h
      rcases List.mem_cons.1 h with h1 | h1
      · exact Or.inl h1
      · exact Or.inr (List.mem_cons_of_mem _ h1)
    · simp only [Tracked.setEntry, if_neg hq] at h
      rcases List.mem_cons.1 h with h1 | h1
      · exact Or.inr (h1 ▸ List.mem_cons_self _ _)
      · rcases ih h1 with h2 | h2
        · exact Or.inl h2
        · exact Or.inr (List.mem_cons_of_mem _ h2)

theorem inv_add {m : Mempool} (h : Inv m) (tx : Transaction) :
    Inv (m.add tx) := by
  by_cases hcap : MAX_TRANSACTIONS ≤ m.transactions.length
  · rw [add_eq_of_cap tx hcap]; exact h
  by_cases hdup : tx ∈ m.transactions
  · rw [add_eq_of_dup hcap hdup]; exact h
  set bt : NonceMap := (m.tracked.lookup tx.public).getD [] with hbt
  by_cases hnonce : bt.containsKey tx.nonce
  · rw [add_eq_of_nonce hcap hdup hnonce]; exact h
  set bt1 : NonceMap := NonceMap.insertSorted tx.nonce tx.digest bt with hbt1
  -- facts shared by both the eviction and the plain-insert branch
  have hperm1 : bt1.Perm ((tx.nonce, tx) :: bt) :=
    NonceMap.insertSorted_perm tx hnonce
  have hlen1 : bt1.length = bt.length + 1 := NonceMap.length_insertSorted tx hnonce
  -- the per-account facts of the account being touched
  have hbt_sorted : List.Pairwise nlt bt := by
    rcases hlook : m.tracked.lookup tx.public with _ | btv
    · rw [hbt, hlook]; simp
    · have := h.sorted (tx.public, btv) (Tracked.lookup_mem hlook)
      rwa [hbt, hlook]
  have hbt_owner : ∀ nd ∈ bt, nd.2.public = tx.public ∧ nd.2.nonce = nd.1 := by
    rcases hlook : m.tracked.lookup tx.public with _ | btv
    · rw [hbt, hlook]; simp
    · have := h.owner (tx.public, btv) (Tracked.lookup_mem hlook)
      rwa [hbt, hlook]
  have hbt_backlog : bt.length ≤ MAX_BACKLOG := by
    rcases hlook : m.tracked.lookup tx.public with _ | btv
    · rw [hbt, hlook]; simp
    · have := h.backlog (tx.public, btv) (Tracked.lookup_mem hlook)
      rwa [hbt, hlook]
  have hbt1_sorted : List.Pairwise nlt bt1 :=
    NonceMap.insertSorted_sorted tx hbt_sorted hnonce
  have hbt1_owner : ∀ nd ∈ bt1, nd.2.public = tx.public ∧ nd.2.nonce = nd.1 := by
    intro nd hnd
    rcases List.mem_cons.1 (hperm1.mem_iff.1 hnd) with h1 | h1
    · rw [h1]; exact ⟨rfl, rfl⟩
    · exact hbt_owner nd h1
  -- the perm fact after writing back `bt1` for the account
  have hperm_set : (tx :: m.transactions).Perm
      (allTxs (m.tracked.setEntry tx.public bt1)) := by
    rcases hlook : m.tracked.lookup tx.public with _ | btv
    · -- fresh account: the entry is appended
      have habs : tx.public ∉ m.tracked.map Prod.fst :=
        Tracked.lookup_eq_none.1 hlook
      rw [Tracked.setEntry_eq_append bt1 habs, allTxs_append]
      have hbtnil : bt = [] := by rw [hbt, hlook]; rfl
      have : bt1.map Prod.snd = [tx] := by
        have : bt1 = [(tx.nonce, tx)] := by
          rw [hbt1, hbtnil]; rfl
        rw [this]; rfl
      simp only [allTxs_cons, allTxs_nil, this, List.append_nil]
      exact (h.perm.cons tx).trans
        (@List.perm_append_comm _ [tx] (allTxs m.tracked))
    · -- existing account: the entry is replaced in place
      have hmem : (tx.public, btv) ∈ m.tracked := Tracked.lookup_mem hlook
      have hbtv : bt = btv := by rw [hbt, hlook]; rfl
      have hset := Tracked.setEntry_perm bt1 h.keysNodup hmem
      have hdec : (allTxs m.tracked).Perm
          (btv.map Prod.snd ++ allTxs (m.tracked.removeEntry tx.public)) :=
        allTxs_perm (Tracked.perm_removeEntry h.keysNodup hmem)
      have hmap : (bt1.map Prod.snd).Perm (tx :: btv.map Prod.snd) := by
        have hm := hperm1.map Prod.snd
        rwa [hbtv] at hm
      have step2 : (tx :: allTxs m.tracked).Perm
          (bt1.map Prod.snd ++ allTxs (m.tracked.removeEntry tx.public)) :=
        (hdec.cons tx).trans (hmap.symm.append_right _)
      have step3 : (allTxs (m.tracked.setEntry tx.public bt1)).Perm
          (bt1.map Prod.snd ++ allTxs (m.tracked.removeEntry tx.public)) :=
        allTxs_perm hset
      exact ((h.perm.cons tx).trans step2).trans step3.symm
  -- keys of the written-back index
  have hkeys_set : ∀ bt' : NonceMap,
      ((m.tracked.setEntry tx.public bt').map Prod.fst).Nodup := by
    intro bt'
    rcases hlook : m.tracked.lookup tx.public with _ | btv
    · have habs : tx.public ∉ m.tracked.map Prod.fst :=
        Tracked.lookup_eq_none.1 hlook
      rw [Tracked.setEntry_eq_append bt' habs]
      simp only [List.map_append]
      refine List.Nodup.append h.keysNodup (List.nodup_singleton _) ?_
      intro x hx hx'
      rw [List.map_singleton, List.mem_singleton] at hx'
      subst hx'
      exact habs hx
    · have hpres : tx.public ∈ m.tracked.map Prod.fst := by
        by_contra hc
        rw [Tracked.lookup_eq_none.2 hc] at hlook
        cases hlook
      rw [Tracked.keys_setEntry_present bt' hpres]
      exact h.keysNodup
  by_cases hlen : MAX_BACKLOG < bt1.length
  · -- eviction branch
    have hne : bt1 ≠ [] := by
      rw [hbt1]
      exact NonceMap.insertSorted_ne_nil tx.nonce tx.digest bt
    have hlast : bt1.getLast? = some (bt1.getLast hne) :=
      List.getLast?_eq_getLast bt1 hne
    set nd : Nat × Digest := bt1.getLast hne with hnd
    rw [add_eq_evict hcap hdup hnonce hlen hlast]
    -- the account must already exist: `bt` is nonempty
    have hbtlen : bt.length + 1 = bt1.length := hlen1.symm
    have hbtpos : 0 < bt.length := by
      rw [MAX_BACKLOG] at hlen; omega
    obtain ⟨btv, hlook⟩ : ∃ btv, m.tracked.lookup tx.public = some btv := by
      rcases hlook : m.tracked.lookup tx.public with _ | btv
      · exfalso
        have hbtnil : bt = [] := by rw [hbt, hlook]; rfl
        rw [hbtnil] at hbtpos; simp at hbtpos
      · exact ⟨btv, rfl⟩
    have hmem : (tx.public, btv) ∈ m.tracked := Tracked.lookup_mem hlook
    have hsplit : bt1.dropLast ++ [nd] = bt1 := List.dropLast_append_getLast hne
    have hnodup1 : (bt1.map Prod.snd).Nodup :=
      snd_nodup_of_sorted hbt1_sorted (fun x hx => (hbt1_owner x hx).2)
    have hmapsplit : bt1.map Prod.snd = bt1.dropLast.map Prod.snd ++ [nd.2] := by
      conv_lhs => rw [← hsplit]
      simp
    have hndout : nd.2 ∉ bt1.dropLast.map Prod.snd := by
      rw [hmapsplit] at hnodup1
      rcases List.nodup_append.1 hnodup1 with ⟨-, -, hdisj⟩
      intro hc
      exact hdisj hc (by simp)
    have hsub_drop : bt1.dropLast.Sublist bt1 := List.dropLast_sublist bt1
    constructor
    · exact hkeys_set _
    · intro pb hpb
      rcases Tracked.mem_setEntry_sub hpb with rfl | hpb'
      · exact hbt1_sorted.sublist hsub_drop
      · exact h.sorted pb hpb'
    · intro pb hpb
      rcases Tracked.mem_setEntry_sub hpb with rfl | hpb'
      · have hdl : bt1.dropLast.length = bt.length := by
          rw [List.length_dropLast]; omega
        show bt1.dropLast ≠ []
        intro hc
        rw [hc] at hdl
        simp at hdl
        omega
      · exact h.nonempty pb hpb'
    · intro pb hpb
      rcases Tracked.mem_setEntry_sub hpb with rfl | hpb'
      · have hdl : bt1.dropLast.length = bt.length := by
          rw [List.length_dropLast]; omega
        show bt1.dropLast.length ≤ MAX_BACKLOG
        rw [hdl]
        exact hbt_backlog
      · exact h.backlog pb hpb'
    · intro pb hpb
      rcases Tracked.mem_setEntry_sub hpb with rfl | hpb'
      · intro x hx
        exact hbt1_owner x (hsub_drop.subset hx)
      · exact h.owner pb hpb'
    · -- the permutation after erasing the evicted digest
      have hset := Tracked.setEntry_perm bt1 h.keysNodup hmem
      have s3 : (allTxs (m.tracked.setEntry tx.public bt1)).Perm
          (bt1.map Prod.snd ++ allTxs (m.tracked.removeEntry tx.public)) :=
        allTxs_perm hset
      have hset' := Tracked.setEntry_perm bt1.dropLast h.keysNodup hmem
      have s3' : (allTxs (m.tracked.setEntry tx.public bt1.dropLast)).Perm
          (bt1.dropLast.map Prod.snd ++ allTxs (m.tracked.removeEntry tx.public)) :=
        allTxs_perm hset'
      have herase : ((bt1.map Prod.snd) ++
            allTxs (m.tracked.removeEntry tx.public)).erase nd.2 =
          bt1.dropLast.map Prod.snd ++ allTxs (m.tracked.removeEntry tx.public) := by
        rw [hmapsplit, List.append_assoc,
          List.erase_append_right _ hndout, List.singleton_append,
          List.erase_cons_head]
      have hchain := (hperm_set.trans s3).erase nd.2
      rw [herase] at hchain
      exact hchain.trans s3'.symm
    · show ((tx :: m.transactions).erase nd.2).length ≤ MAX_TRANSACTIONS
      have hsub : ((tx :: m.transactions).erase nd.2).Sublist
          (tx :: m.transactions) := List.erase_sublist _ _
      have hle := hsub.length_le
      simp only [List.length_cons] at hle
      omega
    · intro pb hpb
      rcases Tracked.mem_setEntry_sub hpb with rfl | hpb'
      · exact h.queued (tx.public, btv) hmem
      · exact h.queued pb hpb'
  · -- plain insert branch
    have hlen' : bt1.length ≤ MAX_BACKLOG := Nat.not_lt.1 hlen
    rw [add_eq_insert hcap hdup hnonce hlen']
    constructor
    · exact hkeys_set _
    · intro pb hpb
      rcases Tracked.mem_setEntry_sub hpb with rfl | hpb'
      · exact hbt1_sorted
      · exact h.sorted pb hpb'
    · intro pb hpb
      rcases Tracked.mem_setEntry_sub hpb with rfl | hpb'
      · show bt1 ≠ []
        rw [hbt1]
        exact NonceMap.insertSorted_ne_nil tx.nonce tx.digest bt
      · exact h.nonempty pb hpb'
    · intro pb hpb
      rcases Tracked.mem_setEntry_sub hpb with rfl | hpb'
      · exact hlen'
      · exact h.backlog pb hpb'
    · intro pb hpb
      rcases Tracked.mem_setEntry_sub hpb with rfl | hpb'
      · exact hbt1_owner
      · exact h.owner pb hpb'
    · exact hperm_set
    · simp only [List.length_cons]
      omega
    · intro pb hpb
      by_cases h1 : bt1.length = 1
      · simp only [if_pos h1]
        rcases Tracked.mem_setEntry_sub hpb with rfl | hpb'
        · exact List.mem_append_right _ (List.mem_singleton_self _)
        · exact List.mem_append_left _ (h.queued pb hpb')
      · simp only [if_neg h1]
        rcases Tracked.mem_setEntry_sub hpb with rfl | hpb'
        · -- the account already had entries, so it is already queued
          have hbtpos : 0 < bt.length := by omega
          obtain ⟨btv, hlook⟩ : ∃ btv, m.tracked.lookup tx.public = some btv := by
            rcases hlook : m.tracked.lookup tx.public with _ | btv
            · exfalso
              have hbtnil : bt = [] := by rw [hbt, hlook]; rfl
              rw [hbtnil] at hbtpos; simp at hbtpos
            · exact ⟨btv, rfl⟩
          exact h.queued (tx.public, btv) (Tracked.lookup_mem hlook)
        · exact h.queued pb hpb'

/-!
## Preservation through `retain`
-/

theorem retainLoop_kept_sublist (min : Nat) (bt : NonceMap)
    (txs : List Transaction) : (retainLoop min bt txs).1.Sublist bt := by
  induction bt generalizing txs with
  | nil => simp [retainLoop]
  | cons hd tl ih =>
    obtain ⟨n, d⟩ := hd
    by_cases hmin : min ≤ n
    · simp [retainLoop, hmin]
    · simp only [retainLoop, if_neg hmin]
      exact (ih _).trans (List.sublist_cons_self _ _)

theorem retainLoop_txs_sublist (min : Nat) (bt : NonceMap)
    (txs : List Transaction) : (retainLoop min bt txs).2.1.Sublist txs := by
  induction bt generalizing txs with
  | nil => simp [retainLoop]
  | cons hd tl ih =>
    obtain ⟨n, d⟩ := hd
    by_cases hmin : min ≤ n
    · simp [retainLoop, hmin]
    · simp only [retainLoop, if_neg hmin]
      exact (ih _).trans (List.erase_sublist _ _)

theorem retainLoop_flag (min : Nat) (bt : NonceMap) (txs : List Transaction) :
    (retainLoop min bt txs).2.2 = (retainLoop min bt txs).1.isEmpty := by
  induction bt generalizing txs with
  | nil => simp [retainLoop]
  | cons hd tl ih =>
    obtain ⟨n, d⟩ := hd
    by_cases hmin : min ≤ n
    · simp [retainLoop, hmin]
    · simp only [retainLoop, if_neg hmin]
      exact ih _

theorem retainLoop_perm (min : Nat) (bt : NonceMap)
    (txs rem : List Transaction) (h : txs.Perm (bt.map Prod.snd ++ rem)) :
    (retainLoop min bt txs).2.1.Perm
      ((retainLoop min bt txs).1.map Prod.snd ++ rem) := by
  induction bt generalizing txs with
  | nil => simpa [retainLoop] using h
  | cons hd tl ih =>
    obtain ⟨n, d⟩ := hd
    by_cases hmin : min ≤ n
    · simpa [retainLoop, hmin] using h
    · simp only [retainLoop, if_neg hmin]
      apply ih
      have h2 := h.erase d
      rwa [show ((n, d) :: tl).map Prod.snd ++ rem =
        d :: (tl.map Prod.snd ++ rem) from rfl, List.erase_cons_head] at h2

theorem inv_retain {m : Mempool} (h : Inv m) (p : PublicKey) (min : Nat) :
    Inv (m.retain p min) := by
  rcases hlook : m.tracked.lookup p with _ | bt
  · unfold Mempool.retain
    rw [hlook]
    exact h
  unfold Mempool.retain
  rw [hlook]
  show Inv (if (retainLoop min bt m.transactions).2.2 then
      ⟨(retainLoop min bt m.transactions).2.1, m.tracked.removeEntry p, m.queue⟩
    else ⟨(retainLoop min bt m.transactions).2.1,
      m.tracked.setEntry p (retainLoop min bt m.transactions).1, m.queue⟩)
  have hmem : (p, bt) ∈ m.tracked := Tracked.lookup_mem hlook
  have hdec : (allTxs m.tracked).Perm
      (bt.map Prod.snd ++ allTxs (m.tracked.removeEntry p)) :=
    allTxs_perm (Tracked.perm_removeEntry h.keysNodup hmem)
  have hperm0 : m.transactions.Perm
      (bt.map Prod.snd ++ allTxs (m.tracked.removeEntry p)) :=
    h.perm.trans hdec
  have hloopperm := retainLoop_perm min bt m.transactions _ hperm0
  have hkept_sub := retainLoop_kept_sublist min bt m.transactions
  have htxs_sub := retainLoop_txs_sublist min bt m.transactions
  have hcap' : (retainLoop min bt m.transactions).2.1.length ≤ MAX_TRANSACTIONS :=
    le_trans htxs_sub.length_le h.capacity
  split
  · -- the account ran empty: it is removed from the index
    rename_i hflag
    have hkept : (retainLoop min bt m.transactions).1 = [] :=
      List.isEmpty_iff.1 (retainLoop_flag min bt m.transactions ▸ hflag)
    constructor
    · exact (Tracked.keys_removeEntry h.keysNodup).1
    · exact fun pb hpb => h.sorted pb (Tracked.mem_removeEntry_sub hpb)
    · exact fun pb hpb => h.nonempty pb (Tracked.mem_removeEntry_sub hpb)
    · exact fun pb hpb => h.backlog pb (Tracked.mem_removeEntry_sub hpb)
    · exact fun pb hpb => h.owner pb (Tracked.mem_removeEntry_sub hpb)
    · have := hloopperm
      rw [hkept] at this
      simpa using this
    · exact hcap'
    · exact fun pb hpb => h.queued pb (Tracked.mem_removeEntry_sub hpb)
  · -- some entries survive: they are written back in place
    rename_i hflag
    have hkept : (retainLoop min bt m.transactions).1 ≠ [] := by
      rw [Bool.not_eq_true] at hflag
      exact List.isEmpty_eq_false.1 (retainLoop_flag min bt m.transactions ▸ hflag)
    have hbt_sorted := h.sorted (p, bt) hmem
    have hbt_owner := h.owner (p, bt) hmem
    have hbt_backlog := h.backlog (p, bt) hmem
    constructor
    · -- keys unchanged
      have hpres : p ∈ m.tracked.map Prod.fst :=
        List.mem_map.2 ⟨(p, bt), hmem, rfl⟩
      rw [Tracked.keys_setEntry_present _ hpres]
      exact h.keysNodup
    · intro pb hpb
      rcases Tracked.mem_setEntry_sub hpb with rfl | hpb'
      · exact hbt_sorted.sublist hkept_sub
      · exact h.sorted pb hpb'
    · intro pb hpb
      rcases Tracked.mem_setEntry_sub hpb with rfl | hpb'
      · exact hkept
      · exact h.nonempty pb hpb'
    · intro pb hpb
      rcases Tracked.mem_setEntry_sub hpb with rfl | hpb'
      · exact le_trans hkept_sub.length_le hbt_backlog
      · exact h.backlog pb hpb'
    · intro pb hpb
      rcases Tracked.mem_setEntry_sub hpb with rfl | hpb'
      · exact fun nd hnd => hbt_owner nd (hkept_sub.subset hnd)
      · exact h.owner pb hpb'
    · have hset := Tracked.setEntry_perm
        (retainLoop min bt m.transactions).1 h.keysNodup hmem
      have s3 : (allTxs (m.tracked.setEntry p
          (retainLoop min bt m.transactions).1)).Perm
          ((retainLoop min bt m.transactions).1.map Prod.snd ++
            allTxs (m.tracked.removeEntry p)) :=
        allTxs_perm hset
      exact hloopperm.trans s3.symm
    · exact hcap'
    · intro pb hpb
      rcases Tracked.mem_setEntry_sub hpb with rfl | hpb'
      · exact h.queued (p, bt) hmem
      · exact h.queued pb hpb'

/-!
## Preservation through `next`
-/

/-- The master lemma about the drain loop: from components satisfying the
invariant (with the queue condition relative to the remaining queue), the
loop never panics, its result satisfies the invariant, a `none` result
means the index was empty and nothing changed, a drained transaction was
present in the primary map and was the lowest-nonce entry of its account,
and per-account maps only shrink. -/
theorem nextLoop_inv {q : List PublicKey} {tr : Tracked}
    {txs : List Transaction} (h : InvC txs tr q) :
    ∃ res, nextLoop q tr txs = some res ∧
      InvC res.2.1 res.2.2.1 res.2.2.2 ∧
      (res.1 = none → res = (none, txs, tr, []) ∧ tr = []) ∧
      (∀ d, res.1 = some d → d ∈ txs ∧ res.2.1 = txs.erase d ∧
        ∃ btRest, tr.lookup d.public = some ((d.nonce, d) :: btRest)) ∧
      (∀ p bt', res.2.2.1.lookup p = some bt' →
        ∃ bt0, tr.lookup p = some bt0 ∧ ∀ nd ∈ bt', nd ∈ bt0) ∧
      (∀ d, res.1 = some d → ∀ bt', res.2.2.1.lookup d.public = some bt' →
        ∀ nd ∈ bt', d.nonce < nd.1) := by
  induction q generalizing tr txs with
  | nil =>
    refine ⟨(none, txs, tr, []), rfl, ?_, ?_, ?_, ?_, ?_⟩
    · exact ⟨h.keysNodup, h.sorted, h.nonempty, h.backlog, h.owner, h.perm,
        h.capacity, h.queued⟩
    · intro _
      refine ⟨rfl, ?_⟩
      cases htr : tr with
      | nil => rfl
      | cons pb tl =>
        exact absurd (h.queued pb (htr ▸ List.mem_cons_self _ _))
          (List.not_mem_nil _)
    · intro d hd
      cases hd
    · intro p bt' hbt'
      exact ⟨bt', hbt', fun nd hnd => hnd⟩
    · intro d hd
      cases hd
  | cons a qtl ih =>
    rcases hlook : tr.lookup a with _ | bt
    · -- stale queue entry: the account is no longer tracked
      have hq : InvC txs tr qtl :=
        ⟨h.keysNodup, h.sorted, h.nonempty, h.backlog, h.owner, h.perm,
         h.capacity, by
          intro pb hpb
          have hk : pb.1 ∈ tr.map Prod.fst := List.mem_map.2 ⟨pb, hpb, rfl⟩
          have hne : pb.1 ≠ a := by
            intro hc
            exact (Tracked.lookup_eq_none.1 hlook) (hc ▸ hk)
          rcases List.mem_cons.1 (h.queued pb hpb) with h1 | h1
          · exact absurd h1 hne
          · exact h1⟩
      rcases ih hq with ⟨res, hres, hinv, hnone, hsome, hshrink, hafter⟩
      refine ⟨res, ?_, hinv, ?_, hsome, hshrink, hafter⟩
      · rw [← hres]
        simp only [nextLoop, hlook]
      · intro hn
        rcases hnone hn with ⟨h1, h2⟩
        exact ⟨h1, h2⟩
    · -- the account is tracked; by the invariant its map is nonempty
      have hmem : (a, bt) ∈ tr := Tracked.lookup_mem hlook
      rcases hbt : bt with _ | ⟨⟨n, d⟩, btRest⟩
      · exact absurd rfl (hbt ▸ h.nonempty (a, bt) hmem)
      rw [hbt] at hmem hlook
      have hsorted := h.sorted _ hmem
      have howner := h.owner _ hmem
      have hda : d.public = a := (howner (n, d) (List.mem_cons_self _ _)).1
      have hdn : d.nonce = n := (howner (n, d) (List.mem_cons_self _ _)).2
      -- the digest at the head is present in the primary map
      have hdin : d ∈ txs := by
        rw [h.perm.mem_iff, mem_allTxs]
        exact ⟨(a, (n, d) :: btRest), hmem, n, List.mem_cons_self _ _⟩
      have hdec : (allTxs tr).Perm
          (((n, d) :: btRest).map Prod.snd ++ allTxs (tr.removeEntry a)) :=
        allTxs_perm (Tracked.perm_removeEntry h.keysNodup hmem)
      have hperm0 : txs.Perm
          (d :: (btRest.map Prod.snd ++ allTxs (tr.removeEntry a))) :=
        h.perm.trans hdec
      have hperm1 : (txs.erase d).Perm
          (btRest.map Prod.snd ++ allTxs (tr.removeEntry a)) := by
        have h2 := hperm0.erase d
        rwa [List.erase_cons_head] at h2
      have hcap' : (txs.erase d).length ≤ MAX_TRANSACTIONS :=
        le_trans (List.erase_sublist d txs).length_le h.capacity
      cases hbre : btRest.isEmpty
      · -- the account still has entries: rotate it to the back of the queue
        have hbrne : btRest ≠ [] := List.isEmpty_eq_false.1 hbre
        refine ⟨(some d, txs.erase d, tr.setEntry a btRest, qtl ++ [a]),
          ?_, ?_, ?_, ?_, ?_, ?_⟩
        · simp only [nextLoop, hlook, hbre, Bool.false_eq_true, if_false,
            if_pos hdin]
        · constructor
          · -- keys unchanged
            have hpres : a ∈ tr.map Prod.fst :=
              List.mem_map.2 ⟨(a, (n, d) :: btRest), hmem, rfl⟩
            rw [Tracked.keys_setEntry_present _ hpres]
            exact h.keysNodup
          · intro pb hpb
            rcases Tracked.mem_setEntry_sub hpb with rfl | hpb'
            · exact hsorted.sublist (List.sublist_cons_self _ _)
            · exact h.sorted pb hpb'
          · intro pb hpb
            rcases Tracked.mem_setEntry_sub hpb with rfl | hpb'
            · exact hbrne
            · exact h.nonempty pb hpb'
          · intro pb hpb
            rcases Tracked.mem_setEntry_sub hpb with rfl | hpb'
            · exact le_trans (List.sublist_cons_self _ _).length_le
                (h.backlog _ hmem)
            · exact h.backlog pb hpb'
          · intro pb hpb
            rcases Tracked.mem_setEntry_sub hpb with rfl | hpb'
            · exact fun nd hnd => howner nd (List.mem_cons_of_mem _ hnd)
            · exact h.owner pb hpb'
          · have hset := Tracked.setEntry_perm btRest h.keysNodup hmem
            exact hperm1.trans (allTxs_perm hset).symm
          · exact hcap'
          · intro pb hpb
            rcases Tracked.mem_setEntry_sub hpb with rfl | hpb'
            · exact List.mem_append_right _ (List.mem_singleton_self _)
            · rcases List.mem_cons.1 (h.queued pb hpb') with h1 | h1
              · exact h1 ▸ List.mem_append_right _ (List.mem_singleton_self _)
              · exact List.mem_append_left _ h1
        · intro hc
          cases hc
        · intro d' hd'
          cases hd'
          refine ⟨hdin, rfl, btRest, ?_⟩
          rw [hda, hdn]
          exact hlook
        · intro p bt' hbt'
          by_cases hpa : p = a
          · subst hpa
            rw [Tracked.lookup_setEntry_self] at hbt'
            cases hbt'
            exact ⟨(n, d) :: btRest, hlook,
              fun nd hnd => List.mem_cons_of_mem _ hnd⟩
          · rw [Tracked.lookup_setEntry_ne _ hpa] at hbt'
            exact ⟨bt', hbt', fun nd hnd => hnd⟩
        · intro d' hd' bt' hbt'
          cases hd'
          rw [hda, Tracked.lookup_setEntry_self] at hbt'
          have hbt'eq : bt' = btRest := (Option.some.inj hbt').symm
          subst hbt'eq
          intro nd hnd
          rw [hdn]
          exact (List.pairwise_cons.1 hsorted).1 nd hnd
      · -- the account ran dry: drop it from the index
        have hbrnil : btRest = [] := List.isEmpty_iff.1 hbre
        subst hbrnil
        refine ⟨(some d, txs.erase d, tr.removeEntry a, qtl), ?_, ?_, ?_, ?_,
          ?_, ?_⟩
        · simp only [nextLoop, hlook, hbre, if_true, if_pos hdin,
            List.append_nil]
        · constructor
          · exact (Tracked.keys_removeEntry h.keysNodup).1
          · exact fun pb hpb => h.sorted pb (Tracked.mem_removeEntry_sub hpb)
          · exact fun pb hpb => h.nonempty pb (Tracked.mem_removeEntry_sub hpb)
          · exact fun pb hpb => h.backlog pb (Tracked.mem_removeEntry_sub hpb)
          · exact fun pb hpb => h.owner pb (Tracked.mem_removeEntry_sub hpb)
          · simpa using hperm1
          · exact hcap'
          · intro pb hpb
            have hk : pb.1 ∈ (tr.removeEntry a).map Prod.fst :=
              List.mem_map.2 ⟨pb, hpb, rfl⟩
            have hne : pb.1 ≠ a :=
              ((Tracked.keys_removeEntry h.keysNodup).2 pb.1 |>.1 hk).2
            rcases List.mem_cons.1
                (h.queued pb (Tracked.mem_removeEntry_sub hpb)) with h1 | h1
            · exact absurd h1 hne
            · exact h1
        · intro hc
          cases hc
        · intro d' hd'
          cases hd'
          refine ⟨hdin, rfl, [], ?_⟩
          rw [hda, hdn]
          exact hlook
        · intro p bt' hbt'
          by_cases hpa : p = a
          · subst hpa
            rw [Tracked.lookup_removeEntry_self h.keysNodup] at hbt'
            cases hbt'
          · rw [Tracked.lookup_removeEntry_ne hpa] at hbt'
            exact ⟨bt', hbt', fun nd hnd => hnd⟩
        · intro d' hd' bt' hbt'
          cases hd'
          rw [hda, Tracked.lookup_removeEntry_self h.keysNodup] at hbt'
          cases hbt'

/-- `next` never panics from an invariant state, and preserves the
invariant. -/
theorem inv_next {m : Mempool} (h : Inv m) :
    ∃ res, m.next = some res ∧ Inv res.2 := by
  rcases nextLoop_inv h with ⟨res, hres, hinv, -, -, -, -⟩
  refine ⟨(res.1, ⟨res.2.1, res.2.2.1, res.2.2.2⟩), ?_, hinv⟩
  rw [Mempool.next, hres]
  rfl

theorem inv_step {m : Mempool} (h : Inv m) (op : Op) : Inv (m.step op) := by
  cases op with
  | add tx => exact inv_add h tx
  | retain p min => exact inv_retain h p min
  | next =>
    rcases inv_next h with ⟨res, hres, hinv⟩
    simp only [Mempool.step, hres]
    exact hinv

theorem inv_run {m : Mempool} (h : Inv m) (ops : List Op) : Inv (m.run ops) := by
  induction ops generalizing m with
  | nil => exact h
  | cons op tl ih =>
    have h1 : m.run (op :: tl) = (m.step op).run tl := by
      simp [Mempool.run]
    rw [h1]
    exact ih (inv_step h op)

/-- Every reachable mempool state satisfies the invariant. -/
theorem inv_reachable {m : Mempool} (h : Reachable m) : Inv m := by
  rcases h with ⟨ops, rfl⟩
  exact inv_run inv_empty ops

/-!
## Further structural lemmas used by the claims
-/

/-- In a sorted nonce map, the `pop_last` entry has the maximal nonce. -/
theorem sorted_getLast_max {bt : NonceMap} (hs : List.Pairwise nlt bt)
    (hne : bt ≠ []) : ∀ nd ∈ bt, nd.1 ≤ (bt.getLast hne).1 := by
  intro nd hnd
  have hsplit : bt.dropLast ++ [bt.getLast hne] = bt :=
    List.dropLast_append_getLast hne
  rw [← hsplit] at hs hnd
  rcases List.mem_append.1 hnd with h1 | h1
  · rcases List.pairwise_append.1 hs with ⟨-, -, hcross⟩
    exact le_of_lt (hcross nd h1 _ (List.mem_singleton_self _))
  · rw [List.mem_singleton.1 h1]

/-- A sorted nonce map binds each nonce at most once. -/
theorem sorted_key_unique {bt : NonceMap} (hs : List.Pairwise nlt bt)
    {n : Nat} {d1 d2 : Digest} (h1 : (n, d1) ∈ bt) (h2 : (n, d2) ∈ bt) :
    d1 = d2 := by
  induction bt with
  | nil => simp at h1
  | cons hd tl ih =>
    rcases List.pairwise_cons.1 hs with ⟨hhd, htl⟩
    rcases List.mem_cons.1 h1 with ha | ha <;>
      rcases List.mem_cons.1 h2 with hb | hb
    · rw [← ha] at hb
      exact (Prod.mk.injEq _ _ _ _ ▸ hb).2.symm
    · exfalso
      have := hhd _ hb
      rw [← ha] at this
      exact lt_irrefl n this
    · exfalso
      have := hhd _ ha
      rw [← hb] at this
      exact lt_irrefl n this
    · exact ih htl ha hb

/-- Inserting a nonce above every existing nonce appends at the end. -/
theorem insertSorted_append_of_max {bt : NonceMap} {k : Nat} (v : Digest)
    (h : ∀ nd ∈ bt, nd.1 < k) :
    NonceMap.insertSorted k v bt = bt ++ [(k, v)] := by
  induction bt with
  | nil => rfl
  | cons hd tl ih =>
    have hhd : hd.1 < k := h hd (List.mem_cons_self _ _)
    obtain ⟨k', v'⟩ := hd
    simp only [NonceMap.insertSorted,
      if_neg (by omega : ¬ k < k'), if_neg (by omega : ¬ k = k')]
    rw [ih (fun nd hnd => h nd (List.mem_cons_of_mem _ hnd))]
    rfl

/-- Writing back the value a key already has is the identity. -/
theorem Tracked.setEntry_lookup_eq_self {t : Tracked} {p : PublicKey}
    {bt : NonceMap} (h : t.lookup p = some bt) : t.setEntry p bt = t := by
  induction t with
  | nil => simp [Tracked.lookup] at h
  | cons hd tl ih =>
    obtain ⟨q, btq⟩ := hd
    by_cases hq : q = p
    · subst hq
      simp [Tracked.lookup] at h
      simp [Tracked.setEntry, h]
    · simp only [Tracked.lookup, if_neg hq] at h
      simp [Tracked.setEntry, hq, ih h]

/-- Entries with a different key survive `removeEntry`. -/
theorem Tracked.mem_removeEntry_of_ne {t : Tracked} {p : PublicKey}
    {pb : PublicKey × NonceMap} (hpb : pb ∈ t) (hne : pb.1 ≠ p) :
    pb ∈ t.removeEntry p := by
  induction t with
  | nil => simp at hpb
  | cons hd tl ih =>
    obtain ⟨q, btq⟩ := hd
    rcases List.mem_cons.1 hpb with h1 | h1
    · have hq : q ≠ p := by
        intro hc
        apply hne
        rw [h1]
        exact hc
      simp only [Tracked.removeEntry, if_neg hq]
      exact h1 ▸ List.mem_cons_self _ _
    · by_cases hq : q = p
      · subst hq
        simp only [Tracked.removeEntry, if_pos rfl]
        exact h1
      · simp only [Tracked.removeEntry, if_neg hq]
        exact List.mem_cons_of_mem _ (ih h1)

/-- A stored transaction occupies its `(public, nonce)` slot in the
per-account index. -/
theorem Inv.nonce_occupied {m : Mempool} (h : Inv m) {tx : Transaction}
    (htx : tx ∈ m.transactions) :
    ((m.tracked.lookup tx.public).getD []).containsKey tx.nonce := by
  rcases h.mem_transactions.1 htx with ⟨bt, hbt, hmem⟩
  rw [hbt]
  exact List.mem_map.2 ⟨(tx.nonce, tx), hmem, rfl⟩

/-- Admitting a transaction into an account whose backlog is full and whose
tracked nonces all lie below the new nonce leaves the state unchanged: the
transaction is inserted and immediately evicted again as the highest-nonce
entry. -/
theorem add_full_future_noop {m : Mempool} (h : Inv m) {tx : Transaction}
    {bt : NonceMap} (hlook : m.tracked.lookup tx.public = some bt)
    (hmax : ∀ nd ∈ bt, nd.1 < tx.nonce) (hfull : MAX_BACKLOG ≤ bt.length) :
    m.add tx = m := by
  by_cases hcap : MAX_TRANSACTIONS ≤ m.transactions.length
  · exact add_eq_of_cap tx hcap
  have hgetD : (m.tracked.lookup tx.public).getD [] = bt := by
    rw [hlook]; rfl
  have hdup : tx ∉ m.transactions := by
    intro hc
    rcases h.mem_transactions.1 hc with ⟨bt', hbt', hmem⟩
    rw [hlook] at hbt'
    cases hbt'
    exact lt_irrefl tx.nonce (hmax (tx.nonce, tx) hmem)
  have hnonce : ¬ ((m.tracked.lookup tx.public).getD []).containsKey tx.nonce := by
    rw [hgetD]
    intro hc
    rcases List.mem_map.1 hc with ⟨nd, hnd, hk⟩
    rw [← hk] at hmax
    exact lt_irrefl nd.1 (hmax nd hnd)
  have happend : NonceMap.insertSorted tx.nonce tx.digest
      ((m.tracked.lookup tx.public).getD []) = bt ++ [(tx.nonce, tx)] := by
    rw [hgetD]
    exact insertSorted_append_of_max tx.digest hmax
  have hlen : MAX_BACKLOG < (NonceMap.insertSorted tx.nonce tx.digest
      ((m.tracked.lookup tx.public).getD [])).length := by
    rw [happend]
    simp only [List.length_append, List.length_singleton]
    omega
  have hlast : (NonceMap.insertSorted tx.nonce tx.digest
      ((m.tracked.lookup tx.public).getD [])).getLast? = some (tx.nonce, tx) := by
    rw [happend]
    exact List.getLast?_concat bt
  rw [add_eq_evict hcap hdup hnonce hlen hlast]
  rw [happend, List.dropLast_concat]
  show Mempool.mk ((tx :: m.transactions).erase tx)
    (m.tracked.setEntry tx.public bt) m.queue = m
  rw [List.erase_cons_head, Tracked.setEntry_lookup_eq_self hlook]

/-!
## The claims
-/

/-- C1 (counterexample): the claim that an account is present in the drain
queue at most once while tracked is false. After `add (P,0)`,
`retain P 1`, `add (P,1)` from the empty mempool, account `P = 0` is
tracked (with nonce 1) yet occurs twice in the drain queue: `retain` left a
stale queue entry and the re-admission pushed `P` again. -/
theorem c1_counterexample :
    (Mempool.empty.run
      [Op.add ⟨0, 0, 0⟩, Op.retain 0 1, Op.add ⟨0, 1, 0⟩]).queue = [0, 0] ∧
    (Mempool.empty.run
      [Op.add ⟨0, 0, 0⟩, Op.retain 0 1, Op.add ⟨0, 1, 0⟩]).tracked.lookup 0 =
      some [(1, ⟨0, 1, 0⟩)] := by
  constructor <;> rfl

/-- C1 (amended): in every reachable mempool state, every account key of
the per-account index has a nonempty nonce map and is present in the drain
queue at least once. (Stale entries for untracked accounts may linger until
`next` prunes them, and a tracked account may occur more than once after a
`retain` emptied it and a later `add` re-admitted it.) -/
theorem c1_tracked_account_queued {m : Mempool} (h : Reachable m) :
    ∀ pb ∈ m.tracked, pb.2 ≠ [] ∧ pb.1 ∈ m.queue := by
  intro pb hpb
  exact ⟨(inv_reachable h).nonempty pb hpb, (inv_reachable h).queued pb hpb⟩

/-- C1 witness: the amended statement applied to the concrete reachable
state after one admission. -/
theorem c1_tracked_account_queued_witness :
    (7 : PublicKey) ∈ (Mempool.empty.run [Op.add ⟨7, 0, 0⟩]).queue :=
  (c1_tracked_account_queued ⟨[Op.add ⟨7, 0, 0⟩], rfl⟩
    (7, [(0, ⟨7, 0, 0⟩)]) (by decide)).2

/-- C2: in every reachable state the two indices are mutually consistent:
every stored digest appears in the per-account index under its own account
at its own nonce and nowhere else, every per-account entry stores a digest
of the primary map owned by that account, the sizes agree, and `next`
(whose inner removal `unwrap`s) never panics. -/
theorem c2_index_consistency {m : Mempool} (h : Reachable m) :
    (∀ d ∈ m.transactions, ∃ bt, m.tracked.lookup d.public = some bt ∧
        (d.nonce, d) ∈ bt) ∧
    (∀ pb ∈ m.tracked, ∀ nd ∈ pb.2,
        nd.2 ∈ m.transactions ∧ nd.2.public = pb.1 ∧ nd.2.nonce = nd.1) ∧
    (∀ pb1 ∈ m.tracked, ∀ pb2 ∈ m.tracked, ∀ nd1 ∈ pb1.2, ∀ nd2 ∈ pb2.2,
        nd1.2 = nd2.2 → pb1 = pb2 ∧ nd1 = nd2) ∧
    m.transactions.length = (m.tracked.map (fun pb => pb.2.length)).sum ∧
    (m.next).isSome = true := by
  have hi := inv_reachable h
  refine ⟨?_, ?_, ?_, ?_, ?_⟩
  · intro d hd
    exact hi.mem_transactions.1 hd
  · intro pb hpb nd hnd
    refine ⟨?_, (hi.owner pb hpb nd hnd).1, (hi.owner pb hpb nd hnd).2⟩
    rw [hi.perm.mem_iff, mem_allTxs]
    exact ⟨pb, hpb, nd.1, by rw [Prod.mk.eta]; exact hnd⟩
  · intro pb1 hpb1 pb2 hpb2 nd1 hnd1 nd2 hnd2 heq
    have h1 := hi.owner pb1 hpb1 nd1 hnd1
    have h2 := hi.owner pb2 hpb2 nd2 hnd2
    have hkey : pb1.1 = pb2.1 := by
      rw [← h1.1, ← h2.1, heq]
    have hpb : pb1 = pb2 := by
      have g1 : m.tracked.lookup pb1.1 = some pb1.2 :=
        Tracked.mem_lookup hi.keysNodup (by rw [Prod.mk.eta]; exact hpb1)
      have g2 : m.tracked.lookup pb2.1 = some pb2.2 :=
        Tracked.mem_lookup hi.keysNodup (by rw [Prod.mk.eta]; exact hpb2)
      rw [hkey, g2] at g1
      exact Prod.ext hkey (Option.some.inj g1).symm
    refine ⟨hpb, ?_⟩
    have hn : nd1.1 = nd2.1 := by
      rw [← h1.2, ← h2.2, heq]
    exact Prod.ext hn heq
  · rw [hi.perm.length_eq]
    exact length_allTxs m.tracked
  · rcases inv_next hi with ⟨res, hres, -⟩
    rw [hres]
    rfl

/-- C2 witness: the consistency statement applied to the concrete reachable
state after one admission. -/
theorem c2_index_consistency_witness :
    ((Mempool.empty.run [Op.add ⟨1, 0, 0⟩]).next).isSome = true :=
  (c2_index_consistency ⟨[Op.add ⟨1, 0, 0⟩], rfl⟩).2.2.2.2

/-- C3: in every reachable state at most `MAX_TRANSACTIONS` transactions
are stored, and as long as the bound is met every `add` is a no-op leaving
the whole state (both indices and the queue) unchanged. -/
theorem c3_capacity {m : Mempool} (h : Reachable m) :
    m.transactions.length ≤ MAX_TRANSACTIONS ∧
    (∀ tx, MAX_TRANSACTIONS ≤ m.transactions.length → m.add tx = m) :=
  ⟨(inv_reachable h).capacity, fun tx hf => add_eq_of_cap tx hf⟩

/-- C3 witness: the bound applied to the concrete reachable state after one
admission. -/
theorem c3_capacity_witness :
    (Mempool.empty.run [Op.add ⟨1, 0, 0⟩]).transactions.length ≤
      MAX_TRANSACTIONS :=
  (c3_capacity ⟨[Op.add ⟨1, 0, 0⟩], rfl⟩).1

/-- C10: admitting a transaction for an account that already tracks
`MAX_BACKLOG` nonces, all smaller than the new nonce, leaves the mempool
completely unchanged: the transaction is inserted and immediately evicted
as the highest-nonce entry. -/
theorem c10_future_insert_evicted {m : Mempool} (h : Reachable m)
    {tx : Transaction} {bt : NonceMap}
    (hlook : m.tracked.lookup tx.public = some bt)
    (hfull : bt.length = MAX_BACKLOG)
    (hmax : ∀ nd ∈ bt, nd.1 < tx.nonce) :
    m.add tx = m :=
  add_full_future_noop (inv_reachable h) hlook hmax (le_of_eq hfull.symm)

/-- C10 witness: an account with 16 tracked nonces `0..15`; admitting nonce
16 changes nothing. -/
theorem c10_future_insert_evicted_witness :
    (Mempool.empty.run ((List.range 16).map
        (fun i => Op.add ⟨1, i, 0⟩))).add ⟨1, 16, 5⟩ =
      Mempool.empty.run ((List.range 16).map (fun i => Op.add ⟨1, i, 0⟩)) :=
  c10_future_insert_evicted
    ⟨(List.range 16).map (fun i => Op.add ⟨1, i, 0⟩), rfl⟩
    (show _ = some ((List.range 16).map (fun i => (i, ⟨1, i, 0⟩))) by decide)
    (by decide) (by decide)

/-- C4: in every reachable state every per-account index holds at most
`MAX_BACKLOG` entries; when an admission would make an account exceed
`MAX_BACKLOG`, exactly the highest-nonce entry is evicted from both
indices; and concretely, admitting nonces `0..=16` for one account leaves
nonces `0..=15` tracked and nonce `16` absent. -/
theorem c4_backlog_bound {m : Mempool} (h : Reachable m) :
    (∀ pb ∈ m.tracked, pb.2.length ≤ MAX_BACKLOG) ∧
    (∀ tx : Transaction, ∀ bt : NonceMap,
      m.tracked.lookup tx.public = some bt →
      tx ∉ m.transactions →
      ¬ bt.containsKey tx.nonce →
      ¬ MAX_TRANSACTIONS ≤ m.transactions.length →
      MAX_BACKLOG < (NonceMap.insertSorted tx.nonce tx.digest bt).length →
      ∃ ev, (NonceMap.insertSorted tx.nonce tx.digest bt).getLast? = some ev ∧
        (∀ nd ∈ NonceMap.insertSorted tx.nonce tx.digest bt, nd.1 ≤ ev.1) ∧
        m.add tx = ⟨(tx :: m.transactions).erase ev.2,
          m.tracked.setEntry tx.public
            (NonceMap.insertSorted tx.nonce tx.digest bt).dropLast,
          m.queue⟩) ∧
    ((Mempool.empty.run ((List.range 17).map
        (fun i => Op.add ⟨1, i, 0⟩))).tracked.lookup 1 =
      some ((List.range 16).map (fun i => (i, ⟨1, i, 0⟩))) ∧
      (⟨1, 16, 0⟩ : Transaction) ∉ (Mempool.empty.run ((List.range 17).map
        (fun i => Op.add ⟨1, i, 0⟩))).transactions) := by
  have hi := inv_reachable h
  refine ⟨hi.backlog, ?_, by decide⟩
  intro tx bt hlook hdup hnonce hcap hlen
  have hgetD : (m.tracked.lookup tx.public).getD [] = bt := by
    rw [hlook]; rfl
  have hsorted : List.Pairwise nlt bt :=
    hi.sorted (tx.public, bt) (Tracked.lookup_mem hlook)
  have hsorted1 : List.Pairwise nlt (NonceMap.insertSorted tx.nonce tx.digest bt) :=
    NonceMap.insertSorted_sorted tx.digest hsorted hnonce
  have hne : NonceMap.insertSorted tx.nonce tx.digest bt ≠ [] :=
    NonceMap.insertSorted_ne_nil tx.nonce tx.digest bt
  refine ⟨(NonceMap.insertSorted tx.nonce tx.digest bt).getLast hne,
    List.getLast?_eq_getLast _ hne, sorted_getLast_max hsorted1 hne, ?_⟩
  have := @add_eq_evict m tx
    ((NonceMap.insertSorted tx.nonce tx.digest bt).getLast hne)
    hcap hdup (by rw [hgetD]; exact hnonce) (by rw [hgetD]; exact hlen)
    (by rw [hgetD]; exact List.getLast?_eq_getLast _ hne)
  rw [this, hgetD]

/-- C4 witness: the per-account bound at a concrete reachable state. -/
theorem c4_backlog_bound_witness :
    ([(0, (⟨1, 0, 0⟩ : Transaction))] : NonceMap).length ≤ MAX_BACKLOG :=
  (c4_backlog_bound ⟨[Op.add ⟨1, 0, 0⟩], rfl⟩).1
    (1, [(0, ⟨1, 0, 0⟩)]) (by decide)

/-- C5: first-writer-wins per `(public, nonce)`. For two distinct
transactions with the same account and nonce, after `add tx1` the call
`add tx2` changes nothing, and if `tx1` was stored then `tx2` is absent
afterwards. -/
theorem c5_first_writer_wins {m : Mempool} (h : Reachable m)
    {tx1 tx2 : Transaction} (hp : tx1.public = tx2.public)
    (hn : tx1.nonce = tx2.nonce) (hne : tx1 ≠ tx2) :
    (m.add tx1).add tx2 = m.add tx1 ∧
    (tx1 ∈ (m.add tx1).transactions →
      tx2 ∉ ((m.add tx1).add tx2).transactions) := by
  have hi := inv_reachable h
  have hi1 : Inv (m.add tx1) := inv_add hi tx1
  have hmain : (m.add tx1).add tx2 = m.add tx1 := by
    by_cases hcap2 : MAX_TRANSACTIONS ≤ (m.add tx1).transactions.length
    · exact add_eq_of_cap tx2 hcap2
    by_cases hdup2 : tx2 ∈ (m.add tx1).transactions
    · exact add_eq_of_dup hcap2 hdup2
    by_cases hocc2 : (((m.add tx1).tracked.lookup tx2.public).getD
        []).containsKey tx2.nonce
    · exact add_eq_of_nonce hcap2 hdup2 hocc2
    -- `tx2` was neither capacity- nor duplicate- nor nonce-rejected, so we
    -- must be in the insert-and-self-evict scenario for both transactions
    by_cases hcap1 : MAX_TRANSACTIONS ≤ m.transactions.length
    · exfalso
      rw [add_eq_of_cap tx1 hcap1] at hcap2
      exact hcap2 hcap1
    by_cases hdup1 : tx1 ∈ m.transactions
    · exfalso
      apply hocc2
      rw [add_eq_of_dup hcap1 hdup1, ← hp, ← hn]
      exact hi.nonce_occupied hdup1
    by_cases hocc1 : ((m.tracked.lookup tx1.public).getD
        []).containsKey tx1.nonce
    · exfalso
      apply hocc2
      rw [add_eq_of_nonce hcap1 hdup1 hocc1, ← hp, ← hn]
      exact hocc1
    set bt : NonceMap := (m.tracked.lookup tx1.public).getD [] with hbt
    set bt1 : NonceMap := NonceMap.insertSorted tx1.nonce tx1.digest bt
      with hbt1
    have hmemtx1 : (tx1.nonce, tx1) ∈ bt1 :=
      (NonceMap.insertSorted_perm tx1.digest hocc1).mem_iff.2
        (List.mem_cons_self _ _)
    by_cases hlen1 : MAX_BACKLOG < bt1.length
    · -- eviction happened on `tx1`'s admission
      have hne1 : bt1 ≠ [] := by
        rw [hbt1]
        exact NonceMap.insertSorted_ne_nil tx1.nonce tx1.digest bt
      have hlast : bt1.getLast? = some (bt1.getLast hne1) :=
        List.getLast?_eq_getLast bt1 hne1
      have hm1eq := add_eq_evict hcap1 hdup1 hocc1 hlen1 hlast
      by_cases hev : bt1.getLast hne1 = (tx1.nonce, tx1)
      · -- the admitted transaction itself was evicted: both adds are no-ops
        have hlen0 : bt1.length = bt.length + 1 :=
          NonceMap.length_insertSorted tx1.digest hocc1
        have hbtpos : 0 < bt.length := by
          rw [MAX_BACKLOG] at hlen1; omega
        obtain ⟨btv, hlook⟩ : ∃ btv, m.tracked.lookup tx1.public = some btv := by
          rcases hlook : m.tracked.lookup tx1.public with _ | btv
          · exfalso
            have hbtnil : bt = [] := by rw [hbt, hlook]; rfl
            rw [hbtnil] at hbtpos
            simp at hbtpos
          · exact ⟨btv, rfl⟩
        have hbtv : bt = btv := by rw [hbt, hlook]; rfl
        have hsorted1 : List.Pairwise nlt bt1 := by
          have hbt_sorted : List.Pairwise nlt bt := by
            have := hi.sorted (tx1.public, btv) (Tracked.lookup_mem hlook)
            rw [hbtv]
            exact this
          rw [hbt1]
          exact NonceMap.insertSorted_sorted tx1.digest hbt_sorted hocc1
        have hmax : ∀ nd ∈ bt, nd.1 < tx1.nonce := by
          intro nd hnd
          have hnd1 : nd ∈ bt1 :=
            (NonceMap.insertSorted_perm tx1.digest hocc1).mem_iff.2
              (List.mem_cons_of_mem _ hnd)
          have hle := sorted_getLast_max hsorted1 hne1 nd hnd1
          rw [hev] at hle
          have hneq : nd.1 ≠ tx1.nonce := by
            intro hc
            apply hocc1
            rw [hbt] at hnd
            exact List.mem_map.2 ⟨nd, hnd, hc⟩
          exact lt_of_le_of_ne hle hneq
        have hfull : MAX_BACKLOG ≤ btv.length := by
          rw [← hbtv]
          omega
        have hm1 : m.add tx1 = m :=
          add_full_future_noop hi hlook (hbtv ▸ hmax) hfull
        rw [hm1]
        have hlook2 : m.tracked.lookup tx2.public = some btv := by
          rw [← hp]
          exact hlook
        refine add_full_future_noop hi hlook2 ?_ hfull
        rw [← hn]
        exact hbtv ▸ hmax
      · -- some other entry was evicted: `tx1`'s slot is occupied after all
        exfalso
        apply hocc2
        have hmemdrop : (tx1.nonce, tx1) ∈ bt1.dropLast := by
          have hsplit : bt1.dropLast ++ [bt1.getLast hne1] = bt1 :=
            List.dropLast_append_getLast hne1
          rw [← hsplit] at hmemtx1
          rcases List.mem_append.1 hmemtx1 with h1 | h1
          · exact h1
          · exact absurd (List.mem_singleton.1 h1).symm hev
        rw [hm1eq, ← hp, ← hn]
        show (((m.tracked.setEntry tx1.public
          bt1.dropLast).lookup tx1.public).getD []).containsKey tx1.nonce
        rw [Tracked.lookup_setEntry_self]
        exact List.mem_map.2 ⟨(tx1.nonce, tx1), hmemdrop, rfl⟩
    · -- plain insert: `tx1`'s slot is occupied afterwards
      exfalso
      apply hocc2
      have hm1eq := add_eq_insert hcap1 hdup1 hocc1 (Nat.not_lt.1 hlen1)
      rw [hm1eq, ← hp, ← hn]
      show (((m.tracked.setEntry tx1.public
        bt1).lookup tx1.public).getD []).containsKey tx1.nonce
      rw [Tracked.lookup_setEntry_self]
      exact List.mem_map.2 ⟨(tx1.nonce, tx1), hmemtx1, rfl⟩
  refine ⟨hmain, ?_⟩
  intro h1 h2
  rw [hmain] at h2
  rcases hi1.mem_transactions.1 h1 with ⟨bta, hbta, hma⟩
  rcases hi1.mem_transactions.1 h2 with ⟨btb, hbtb, hmb⟩
  rw [← hp] at hbtb
  rw [hbta] at hbtb
  have hbteq : bta = btb := Option.some.inj hbtb
  rw [← hbteq] at hmb
  rw [← hn] at hmb
  have hsorted : List.Pairwise nlt bta :=
    hi1.sorted (tx1.public, bta) (Tracked.lookup_mem hbta)
  exact hne (sorted_key_unique hsorted hma hmb)

/-- C5 witness: two conflicting nonce-0 transactions for one account in the
concrete empty-mempool scenario. -/
theorem c5_first_writer_wins_witness :
    ((Mempool.empty.add ⟨1, 0, 0⟩).add ⟨1, 0, 7⟩ = Mempool.empty.add ⟨1, 0, 0⟩) ∧
    ((⟨1, 0, 0⟩ : Transaction) ∈ (Mempool.empty.add ⟨1, 0, 0⟩).transactions →
      (⟨1, 0, 7⟩ : Transaction) ∉
        ((Mempool.empty.add ⟨1, 0, 0⟩).add ⟨1, 0, 7⟩).transactions) :=
  c5_first_writer_wins ⟨[], rfl⟩ rfl rfl (by decide)

/-!
## Characterization of `retain` (claim C6)
-/

theorem retainLoop_kept_eq (min : Nat) (bt : NonceMap)
    (txs : List Transaction) :
    (retainLoop min bt txs).1 = bt.dropWhile (fun nd => decide (nd.1 < min)) := by
  induction bt generalizing txs with
  | nil => simp [retainLoop]
  | cons hd tl ih =>
    obtain ⟨n, d⟩ := hd
    by_cases hmin : min ≤ n
    · simp [retainLoop, hmin, List.dropWhile_cons, Nat.not_lt.2 hmin]
    · simp only [retainLoop, if_neg hmin, List.dropWhile_cons]
      rw [if_pos (by simpa using Nat.not_le.1 hmin)]
      exact ih _

theorem sorted_dropWhile_eq_filter {bt : NonceMap} (min : Nat)
    (hs : List.Pairwise nlt bt) :
    bt.dropWhile (fun nd => decide (nd.1 < min)) =
      bt.filter (fun nd => decide (min ≤ nd.1)) := by
  induction bt with
  | nil => rfl
  | cons hd tl ih =>
    rcases List.pairwise_cons.1 hs with ⟨hhd, htl⟩
    by_cases hmin : min ≤ hd.1
    · rw [List.dropWhile_cons, if_neg (by simpa using Nat.not_lt.2 hmin),
        List.filter_cons, if_pos (by simpa using hmin)]
      congr 1
      have hall : ∀ nd ∈ tl, decide (min ≤ nd.1) = true := by
        intro nd hnd
        have := hhd nd hnd
        have hlt : hd.1 < nd.1 := this
        simp
        omega
      exact (List.filter_eq_self.2 hall).symm
    · rw [List.dropWhile_cons, if_pos (by simpa using Nat.not_le.1 hmin),
        List.filter_cons, if_neg (by simpa using hmin)]
      exact ih htl

theorem mem_allTxs_removeEntry {t : Tracked} {p : PublicKey}
    (hnd : (t.map Prod.fst).Nodup)
    (howner : ∀ pb ∈ t, ∀ nd ∈ pb.2, nd.2.public = pb.1 ∧ nd.2.nonce = nd.1)
    {d : Transaction} :
    d ∈ allTxs (t.removeEntry p) ↔ d ∈ allTxs t ∧ d.public ≠ p := by
  constructor
  · intro hd
    rcases mem_allTxs.1 hd with ⟨pb, hpb, n, hn⟩
    have hpb' : pb ∈ t := Tracked.mem_removeEntry_sub hpb
    have hkey : pb.1 ∈ (t.removeEntry p).map Prod.fst :=
      List.mem_map.2 ⟨pb, hpb, rfl⟩
    have hne : pb.1 ≠ p := ((Tracked.keys_removeEntry hnd).2 pb.1 |>.1 hkey).2
    refine ⟨mem_allTxs.2 ⟨pb, hpb', n, hn⟩, ?_⟩
    rw [(howner pb hpb' (n, d) hn).1]
    exact hne
  · rintro ⟨hd, hne⟩
    rcases mem_allTxs.1 hd with ⟨pb, hpb, n, hn⟩
    have hkey : pb.1 ≠ p := by
      rw [← (howner pb hpb (n, d) hn).1]
      exact hne
    exact mem_allTxs.2 ⟨pb, Tracked.mem_removeEntry_of_ne hpb hkey, n, hn⟩

theorem retain_eq_none {m : Mempool} {p : PublicKey} (min : Nat)
    (hlook : m.tracked.lookup p = none) : m.retain p min = m := by
  unfold Mempool.retain
  rw [hlook]

theorem retain_eq_some {m : Mempool} {p : PublicKey} {bt : NonceMap}
    (min : Nat) (hlook : m.tracked.lookup p = some bt) :
    m.retain p min =
      if (retainLoop min bt m.transactions).2.2 then
        ⟨(retainLoop min bt m.transactions).2.1, m.tracked.removeEntry p,
          m.queue⟩
      else
        ⟨(retainLoop min bt m.transactions).2.1,
          m.tracked.setEntry p (retainLoop min bt m.transactions).1,
          m.queue⟩ := by
  unfold Mempool.retain
  rw [hlook]

/-- C6: `retain p min` removes exactly the transactions of `p` with nonce
below `min` from the primary map, keeps every other account's per-account
map untouched, replaces `p`'s map by its `≥ min` suffix or deletes it if
that suffix is empty, leaves the queue alone, and is a no-op when `p` is
unknown. -/
theorem c6_retain_watermark {m : Mempool} (h : Reachable m) (p : PublicKey)
    (min : Nat) :
    (∀ d : Transaction, d ∈ (m.retain p min).transactions ↔
        d ∈ m.transactions ∧ ¬(d.public = p ∧ d.nonce < min)) ∧
    (∀ q, q ≠ p → (m.retain p min).tracked.lookup q = m.tracked.lookup q) ∧
    (∀ bt, m.tracked.lookup p = some bt →
      (m.retain p min).tracked.lookup p =
        (if (bt.filter (fun nd => decide (min ≤ nd.1))).isEmpty then none
         else some (bt.filter (fun nd => decide (min ≤ nd.1))))) ∧
    (m.retain p min).queue = m.queue ∧
    (m.tracked.lookup p = none → m.retain p min = m) := by
  have hi := inv_reachable h
  rcases hlook : m.tracked.lookup p with _ | bt
  · -- unknown account: complete no-op
    rw [retain_eq_none min hlook]
    refine ⟨?_, fun q _ => rfl, ?_, rfl, fun _ => rfl⟩
    · intro d
      constructor
      · intro hd
        refine ⟨hd, ?_⟩
        rintro ⟨hdp, -⟩
        rcases hi.mem_transactions.1 hd with ⟨bt, hbt, -⟩
        rw [hdp, hlook] at hbt
        cases hbt
      · exact fun hd => hd.1
    · intro bt hbt
      cases hbt
  · have hmem : (p, bt) ∈ m.tracked := Tracked.lookup_mem hlook
    have hsorted := hi.sorted (p, bt) hmem
    have howner := hi.owner (p, bt) hmem
    have hkept : (retainLoop min bt m.transactions).1 =
        bt.filter (fun nd => decide (min ≤ nd.1)) := by
      rw [retainLoop_kept_eq, sorted_dropWhile_eq_filter min hsorted]
    have hflag : (retainLoop min bt m.transactions).2.2 =
        (bt.filter (fun nd => decide (min ≤ nd.1))).isEmpty := by
      rw [retainLoop_flag, hkept]
    have hdec : (allTxs m.tracked).Perm
        (bt.map Prod.snd ++ allTxs (m.tracked.removeEntry p)) :=
      allTxs_perm (Tracked.perm_removeEntry hi.keysNodup hmem)
    have hloopperm := retainLoop_perm min bt m.transactions _
      (hi.perm.trans hdec)
    have htxs : (m.retain p min).transactions =
        (retainLoop min bt m.transactions).2.1 := by
      rw [retain_eq_some min hlook]
      split <;> rfl
    have hqueue : (m.retain p min).queue = m.queue := by
      rw [retain_eq_some min hlook]
      split <;> rfl
    refine ⟨?_, ?_, ?_, hqueue, ?_⟩
    · -- membership in the primary map
      intro d
      rw [htxs, hloopperm.mem_iff, List.mem_append, hkept]
      have hrem : d ∈ allTxs (m.tracked.removeEntry p) ↔
          d ∈ m.transactions ∧ d.public ≠ p := by
        rw [mem_allTxs_removeEntry hi.keysNodup hi.owner, ← hi.perm.mem_iff]
      have hkeptmem : d ∈ (bt.filter
          (fun nd => decide (min ≤ nd.1))).map Prod.snd ↔
          d ∈ m.transactions ∧ d.public = p ∧ min ≤ d.nonce := by
        constructor
        · intro hd
          rcases List.mem_map.1 hd with ⟨nd, hnd, hnd2⟩
          rcases List.mem_filter.1 hnd with ⟨hndbt, hndmin⟩
          have ho := howner nd hndbt
          rw [hnd2] at ho
          refine ⟨?_, ho.1, ?_⟩
          · rw [hi.perm.mem_iff]
            exact mem_allTxs.2 ⟨(p, bt), hmem, nd.1, by
              rw [← hnd2, Prod.mk.eta]
              exact hndbt⟩
          · rw [ho.2]
            simpa using hndmin
        · rintro ⟨hd, hdp, hdmin⟩
          rcases hi.mem_transactions.1 hd with ⟨bt', hbt', hmem'⟩
          rw [hdp, hlook] at hbt'
          have hbt'eq : bt' = bt := (Option.some.inj hbt').symm
          rw [hbt'eq] at hmem'
          exact List.mem_map.2 ⟨(d.nonce, d),
            List.mem_filter.2 ⟨hmem', by simpa using hdmin⟩, rfl⟩
      rw [hrem, hkeptmem]
      constructor
      · rintro (⟨hd, hdp, hdmin⟩ | ⟨hd, hdp⟩)
        · exact ⟨hd, by rintro ⟨-, hlt⟩; omega⟩
        · exact ⟨hd, by rintro ⟨hc, -⟩; exact hdp hc⟩
      · rintro ⟨hd, hno⟩
        by_cases hdp : d.public = p
        · refine Or.inl ⟨hd, hdp, ?_⟩
          by_contra hc
          exact hno ⟨hdp, by omega⟩
        · exact Or.inr ⟨hd, hdp⟩
    · -- other accounts untouched
      intro q hq
      rw [retain_eq_some min hlook]
      split
      · exact Tracked.lookup_removeEntry_ne hq
      · exact Tracked.lookup_setEntry_ne _ hq
    · -- the account's own entry
      intro bt' hbt'
      have hbt'eq : bt' = bt := (Option.some.inj hbt').symm
      subst hbt'eq
      rw [retain_eq_some min hlook]
      by_cases hempty : (bt'.filter (fun nd => decide (min ≤ nd.1))).isEmpty
      · rw [if_pos (by rw [hflag]; exact hempty), if_pos hempty]
        show (m.tracked.removeEntry p).lookup p = none
        exact Tracked.lookup_removeEntry_self hi.keysNodup
      · rw [if_neg (by rw [hflag]; exact hempty), if_neg hempty]
        show (m.tracked.setEntry p (retainLoop min bt' m.transactions).1).lookup
          p = some (bt'.filter (fun nd => decide (min ≤ nd.1)))
        rw [Tracked.lookup_setEntry_self, hkept]
    · intro hc
      cases hc

/-- C6 witness: retaining from watermark 1 in a two-transaction account
keeps exactly the nonce-1 transaction. -/
theorem c6_retain_watermark_witness :
    (⟨1, 0, 0⟩ : Transaction) ∈
        ((Mempool.empty.run [Op.add ⟨1, 0, 0⟩, Op.add ⟨1, 1, 0⟩]).retain 1
          1).transactions ↔
      ((⟨1, 0, 0⟩ : Transaction) ∈
          (Mempool.empty.run [Op.add ⟨1, 0, 0⟩, Op.add ⟨1, 1, 0⟩]).transactions ∧
        ¬((1 : PublicKey) = 1 ∧ (0 : Nat) < 1)) :=
  (c6_retain_watermark ⟨[Op.add ⟨1, 0, 0⟩, Op.add ⟨1, 1, 0⟩], rfl⟩ 1 1).1
    ⟨1, 0, 0⟩

/-!
## Characterization of `next` (claim C7) and drain traces
-/

/-- Run a sequence of operations collecting the transactions returned by
the `next` calls, in order. (A panicking `next`, which never occurs from
reachable states, leaves the state unchanged and emits nothing, as in
`Mempool.step`.) -/
def Mempool.runTrace (m : Mempool) : List Op → Mempool × List Transaction
  | [] => (m, [])
  | .next :: tl =>
    match m.next with
    | some (r, m') =>
      let res := m'.runTrace tl
      (res.1, r.toList ++ res.2)
    | none => m.runTrace tl
  | op :: tl => (m.step op).runTrace tl

/-- From an invariant state with a nonempty per-account index, the drain
loop splits the queue as a stale prefix followed by the first still-tracked
account, drains that account's lowest-nonce transaction, and rotates or
drops the account. -/
theorem nextLoop_found {q : List PublicKey} {tr : Tracked}
    {txs : List Transaction} (h : InvC txs tr q) (hne : tr ≠ []) :
    ∃ stale p rest n d btRest,
      q = stale ++ p :: rest ∧
      (∀ x ∈ stale, tr.lookup x = none) ∧
      tr.lookup p = some ((n, d) :: btRest) ∧
      d.public = p ∧ d.nonce = n ∧
      (∀ nd ∈ (n, d) :: btRest, n ≤ nd.1) ∧
      nextLoop q tr txs = some (some d, txs.erase d,
        (if btRest.isEmpty then tr.removeEntry p else tr.setEntry p btRest),
        rest ++ (if btRest.isEmpty then [] else [p])) := by
  induction q with
  | nil =>
    exfalso
    cases htr : tr with
    | nil => exact hne htr
    | cons pb tl =>
      exact List.not_mem_nil pb.1 (h.queued pb (htr ▸ List.mem_cons_self _ _))
  | cons a qtl ih =>
    rcases hlook : tr.lookup a with _ | bt
    · -- stale entry: recurse past it
      have hq : InvC txs tr qtl :=
        ⟨h.keysNodup, h.sorted, h.nonempty, h.backlog, h.owner, h.perm,
         h.capacity, by
          intro pb hpb
          have hk : pb.1 ∈ tr.map Prod.fst := List.mem_map.2 ⟨pb, hpb, rfl⟩
          have hnea : pb.1 ≠ a := by
            intro hc
            exact (Tracked.lookup_eq_none.1 hlook) (hc ▸ hk)
          rcases List.mem_cons.1 (h.queued pb hpb) with h1 | h1
          · exact absurd h1 hnea
          · exact h1⟩
      rcases ih hq with ⟨stale, p, rest, n, d, btRest, hsplit, hstale, hlookp,
        hdp, hdn, hmin, hres⟩
      refine ⟨a :: stale, p, rest, n, d, btRest, by rw [hsplit]; rfl, ?_,
        hlookp, hdp, hdn, hmin, ?_⟩
      · intro x hx
        rcases List.mem_cons.1 hx with h1 | h1
        · rw [h1]
          exact hlook
        · exact hstale x h1
      · simp only [nextLoop, hlook]
        exact hres
    · -- first still-tracked account
      have hmem : (a, bt) ∈ tr := Tracked.lookup_mem hlook
      rcases hbt : bt with _ | ⟨⟨n, d⟩, btRest⟩
      · exact absurd rfl (hbt ▸ h.nonempty (a, bt) hmem)
      rw [hbt] at hmem hlook
      have hsorted := h.sorted _ hmem
      have howner := h.owner _ hmem
      have hda : d.public = a := (howner (n, d) (List.mem_cons_self _ _)).1
      have hdn : d.nonce = n := (howner (n, d) (List.mem_cons_self _ _)).2
      have hdin : d ∈ txs := by
        rw [h.perm.mem_iff, mem_allTxs]
        exact ⟨(a, (n, d) :: btRest), hmem, n, List.mem_cons_self _ _⟩
      refine ⟨[], a, qtl, n, d, btRest, rfl, by simp, hlook, hda, hdn, ?_, ?_⟩
      · intro nd hnd
        rcases List.mem_cons.1 hnd with h1 | h1
        · rw [h1]
        · exact le_of_lt ((List.pairwise_cons.1 hsorted).1 nd h1)
      · cases hbre : btRest.isEmpty
        · simp only [nextLoop, hlook, hbre, Bool.false_eq_true, if_false,
            if_pos hdin]
        · simp only [nextLoop, hlook, hbre, if_true, if_pos hdin,
            List.append_nil]

/-- C7: from every reachable state, `next` returns `None` exactly when no
transaction is tracked (and then the whole stale queue is discarded and the
indices are untouched — indeed empty); otherwise the queue splits into a
stale prefix, which is permanently discarded, and a first still-tracked
account `p`, whose lowest-nonce transaction is returned and removed from
both indices, `p` being re-appended to the back of the queue when it still
has entries and deleted from the per-account index otherwise. -/
theorem c7_next_drain {m : Mempool} (h : Reachable m) :
    (m.transactions = [] →
      m.next = some (none, ⟨m.transactions, m.tracked, []⟩) ∧
        m.tracked = []) ∧
    (m.transactions ≠ [] →
      ∃ stale p rest n d btRest,
        m.queue = stale ++ p :: rest ∧
        (∀ x ∈ stale, m.tracked.lookup x = none) ∧
        m.tracked.lookup p = some ((n, d) :: btRest) ∧
        d.public = p ∧ d.nonce = n ∧
        (∀ nd ∈ (n, d) :: btRest, n ≤ nd.1) ∧
        m.next = some (some d, ⟨m.transactions.erase d,
          (if btRest.isEmpty then m.tracked.removeEntry p
           else m.tracked.setEntry p btRest),
          rest ++ (if btRest.isEmpty then [] else [p])⟩)) ∧
    (∀ r m', m.next = some (r, m') → (r = none ↔ m.transactions = [])) := by
  have hi := inv_reachable h
  have hempty : m.transactions = [] → m.tracked = [] := by
    intro htxs
    have hperm := hi.perm
    rw [htxs] at hperm
    have hall : allTxs m.tracked = [] := (hperm.symm).eq_nil
    cases htr : m.tracked with
    | nil => rfl
    | cons pb tl =>
      exfalso
      rw [htr, allTxs_cons] at hall
      rcases List.append_eq_nil.1 hall with ⟨h1, -⟩
      exact (hi.nonempty pb (htr ▸ List.mem_cons_self _ _))
        (List.map_eq_nil_iff.1 h1)
  have hbranch1 : m.transactions = [] →
      m.next = some (none, ⟨m.transactions, m.tracked, []⟩) ∧
        m.tracked = [] := by
    intro htxs
    rcases nextLoop_inv hi with ⟨res, hres, -, hnone, hsome, -, -⟩
    have hr : res.1 = none := by
      rcases hr1 : res.1 with _ | d
      · rfl
      · exfalso
        have := (hsome d hr1).1
        rw [htxs] at this
        exact List.not_mem_nil d this
    rcases hnone hr with ⟨hres_eq, -⟩
    refine ⟨?_, hempty htxs⟩
    rw [Mempool.next, hres, hres_eq]
    rfl
  have hbranch2 : m.transactions ≠ [] →
      ∃ stale p rest n d btRest,
        m.queue = stale ++ p :: rest ∧
        (∀ x ∈ stale, m.tracked.lookup x = none) ∧
        m.tracked.lookup p = some ((n, d) :: btRest) ∧
        d.public = p ∧ d.nonce = n ∧
        (∀ nd ∈ (n, d) :: btRest, n ≤ nd.1) ∧
        m.next = some (some d, ⟨m.transactions.erase d,
          (if btRest.isEmpty then m.tracked.removeEntry p
           else m.tracked.setEntry p btRest),
          rest ++ (if btRest.isEmpty then [] else [p])⟩) := by
    intro htxs
    have htrne : m.tracked ≠ [] := by
      intro hc
      apply htxs
      have hperm := hi.perm
      rw [hc, allTxs_nil] at hperm
      exact hperm.eq_nil
    rcases nextLoop_found hi htrne with ⟨stale, p, rest, n, d, btRest,
      hsplit, hstale, hlookp, hdp, hdn, hmin, hres⟩
    refine ⟨stale, p, rest, n, d, btRest, hsplit, hstale, hlookp, hdp, hdn,
      hmin, ?_⟩
    rw [Mempool.next, hres]
    rfl
  refine ⟨hbranch1, hbranch2, ?_⟩
  intro r m' hnext
  by_cases htxs : m.transactions = []
  · rcases hbranch1 htxs with ⟨hn, -⟩
    rw [hnext] at hn
    have : r = none := (Prod.mk.injEq _ _ _ _ ▸ Option.some.inj hn).1
    simp [this, htxs]
  · rcases hbranch2 htxs with ⟨stale, p, rest, n, d, btRest, -, -, -, -, -,
      -, hres⟩
    rw [hnext] at hres
    have : r = some d := (Prod.mk.injEq _ _ _ _ ▸ Option.some.inj hres).1
    simp [this, htxs]

/-- C7 witness: the characterization applied at a concrete two-account
state. -/
theorem c7_next_drain_witness :
    (Mempool.empty.run [Op.add ⟨1, 0, 0⟩]).next =
      some (some ⟨1, 0, 0⟩, ⟨[], [], []⟩) := by
  rcases (c7_next_drain ⟨[Op.add ⟨1, 0, 0⟩], rfl⟩).2.1 (by decide)
    with ⟨stale, p, rest, n, d, btRest, hsplit, -, hlookp, -, -, -, hres⟩
  have hstale : stale = [] ∧ p = 1 ∧ rest = [] := by
    have hq : (Mempool.empty.run [Op.add ⟨1, 0, 0⟩]).queue = [1] := by decide
    rw [hq] at hsplit
    rcases stale with _ | ⟨x, xs⟩
    · exact ⟨rfl, (List.cons.injEq _ _ _ _ ▸ hsplit).1.symm,
        (List.cons.injEq _ _ _ _ ▸ hsplit).2.symm⟩
    · exfalso
      have hlen := congrArg List.length hsplit
      simp at hlen
  rcases hstale with ⟨rfl, rfl, rfl⟩
  have hlook1 : (Mempool.empty.run [Op.add ⟨1, 0, 0⟩]).tracked.lookup 1 =
      some [(0, ⟨1, 0, 0⟩)] := by decide
  rw [hlook1] at hlookp
  have hnd : n = 0 ∧ d = ⟨1, 0, 0⟩ ∧ btRest = [] := by
    have h1 := Option.some.inj hlookp
    have h2 := (List.cons.injEq _ _ _ _ ▸ h1)
    exact ⟨(Prod.mk.injEq _ _ _ _ ▸ h2.1).1.symm,
      (Prod.mk.injEq _ _ _ _ ▸ h2.1).2.symm, h2.2.symm⟩
  rcases hnd with ⟨rfl, rfl, rfl⟩
  rw [hres]
  rfl

/-- C7 (counterexample to strict round-robin): after
`add (P,0); retain P 1; add (P,1); add (P,2); add (Q,0)` both accounts
`P = 0` and `Q = 1` stay tracked, yet three `next` calls drain
`P, P, Q` — account `P` is served twice in a row because its duplicated
queue entry survives, so draining is not strict round-robin in order of
first admission. -/
theorem c7_counterexample :
    ((Mempool.empty.runTrace
      [Op.add ⟨0, 0, 0⟩, Op.retain 0 1, Op.add ⟨0, 1, 1⟩, Op.add ⟨0, 2, 2⟩,
       Op.add ⟨1, 0, 0⟩, Op.next, Op.next, Op.next]).2.map
        Transaction.public = [0, 0, 1]) ∧
    (0, [(2, (⟨0, 2, 2⟩ : Transaction))]) ∈
      (Mempool.empty.run
        [Op.add ⟨0, 0, 0⟩, Op.retain 0 1, Op.add ⟨0, 1, 1⟩, Op.add ⟨0, 2, 2⟩,
         Op.add ⟨1, 0, 0⟩, Op.next]).tracked ∧
    (1, [(0, (⟨1, 0, 0⟩ : Transaction))]) ∈
      (Mempool.empty.run
        [Op.add ⟨0, 0, 0⟩, Op.retain 0 1, Op.add ⟨0, 1, 1⟩, Op.add ⟨0, 2, 2⟩,
         Op.add ⟨1, 0, 0⟩, Op.next]).tracked := by
  refine ⟨?_, ?_, ?_⟩ <;> decide

/-!
## Nonce monotonicity of drains (claim C8)
-/

theorem add_tracked_lookup_ne {m : Mempool} {tx : Transaction}
    {P : PublicKey} (hne : tx.public ≠ P) :
    (m.add tx).tracked.lookup P = m.tracked.lookup P := by
  by_cases hcap : MAX_TRANSACTIONS ≤ m.transactions.length
  · rw [add_eq_of_cap tx hcap]
  by_cases hdup : tx ∈ m.transactions
  · rw [add_eq_of_dup hcap hdup]
  by_cases hocc : ((m.tracked.lookup tx.public).getD
      []).containsKey tx.nonce
  · rw [add_eq_of_nonce hcap hdup hocc]
  by_cases hlen : MAX_BACKLOG < (NonceMap.insertSorted tx.nonce tx.digest
      ((m.tracked.lookup tx.public).getD [])).length
  · have hne1 : NonceMap.insertSorted tx.nonce tx.digest
        ((m.tracked.lookup tx.public).getD []) ≠ [] :=
      NonceMap.insertSorted_ne_nil _ _ _
    rw [add_eq_evict hcap hdup hocc hlen (List.getLast?_eq_getLast _ hne1)]
    exact Tracked.lookup_setEntry_ne _ (Ne.symm hne)
  · rw [add_eq_insert hcap hdup hocc (Nat.not_lt.1 hlen)]
    exact Tracked.lookup_setEntry_ne _ (Ne.symm hne)

theorem retain_tracked_lookup_sub {m : Mempool} (hi : Inv m)
    {p P : PublicKey} {min : Nat} {bt' : NonceMap}
    (h : (m.retain p min).tracked.lookup P = some bt') :
    ∃ bt0, m.tracked.lookup P = some bt0 ∧ ∀ nd ∈ bt', nd ∈ bt0 := by
  rcases hlook : m.tracked.lookup p with _ | bt
  · rw [retain_eq_none min hlook] at h
    exact ⟨bt', h, fun nd hnd => hnd⟩
  · rw [retain_eq_some min hlook] at h
    by_cases hPp : P = p
    · subst hPp
      split at h
      · rw [show (Mempool.mk (retainLoop min bt m.transactions).2.1
            (m.tracked.removeEntry P) m.queue).tracked =
            m.tracked.removeEntry P from rfl,
          Tracked.lookup_removeEntry_self hi.keysNodup] at h
        cases h
      · rw [show (Mempool.mk (retainLoop min bt m.transactions).2.1
            (m.tracked.setEntry P (retainLoop min bt m.transactions).1)
            m.queue).tracked =
            m.tracked.setEntry P (retainLoop min bt m.transactions).1 from rfl,
          Tracked.lookup_setEntry_self] at h
        have hbt' : bt' = (retainLoop min bt m.transactions).1 :=
          (Option.some.inj h).symm
        subst hbt'
        exact ⟨bt, hlook, fun nd hnd =>
          (retainLoop_kept_sublist min bt m.transactions).subset hnd⟩
    · split at h
      · rw [show (Mempool.mk (retainLoop min bt m.transactions).2.1
            (m.tracked.removeEntry p) m.queue).tracked =
            m.tracked.removeEntry p from rfl,
          Tracked.lookup_removeEntry_ne hPp] at h
        exact ⟨bt', h, fun nd hnd => hnd⟩
      · rw [show (Mempool.mk (retainLoop min bt m.transactions).2.1
            (m.tracked.setEntry p (retainLoop min bt m.transactions).1)
            m.queue).tracked =
            m.tracked.setEntry p (retainLoop min bt m.transactions).1 from rfl,
          Tracked.lookup_setEntry_ne _ hPp] at h
        exact ⟨bt', h, fun nd hnd => hnd⟩

/-- The per-account nonces drained from an invariant state by operations
that never admit transactions for account `P` are bounded below by any
bound on `P`'s tracked nonces, and strictly ascending. -/
theorem trace_mono {P : PublicKey} (ops : List Op) :
    ∀ {m : Mempool} {lo : Nat}, Inv m →
    (∀ tx, Op.add tx ∈ ops → tx.public ≠ P) →
    (∀ bt, m.tracked.lookup P = some bt → ∀ nd ∈ bt, lo ≤ nd.1) →
    (∀ x ∈ ((m.runTrace ops).2.filter
        (fun tx => decide (tx.public = P))).map Transaction.nonce, lo ≤ x) ∧
    List.Pairwise (· < ·) (((m.runTrace ops).2.filter
        (fun tx => decide (tx.public = P))).map Transaction.nonce) := by
  induction ops with
  | nil =>
    intro m lo hi hops hb
    simp [Mempool.runTrace]
  | cons op tl ih =>
    intro m lo hi hops hb
    have hopstl : ∀ tx, Op.add tx ∈ tl → tx.public ≠ P :=
      fun tx htx => hops tx (List.mem_cons_of_mem _ htx)
    cases op with
    | add tx =>
      have htx : tx.public ≠ P := hops tx (List.mem_cons_self _ _)
      show _ ∧ List.Pairwise _ ((((m.add tx).runTrace tl).2.filter
        (fun tx => decide (tx.public = P))).map Transaction.nonce)
      refine ih (inv_add hi tx) hopstl ?_
      intro bt hbt
      have hbt2 : (m.add tx).tracked.lookup P = some bt := hbt
      rw [add_tracked_lookup_ne htx] at hbt2
      exact hb bt hbt2
    | retain p min =>
      show _ ∧ List.Pairwise _ ((((m.retain p min).runTrace tl).2.filter
        (fun tx => decide (tx.public = P))).map Transaction.nonce)
      refine ih (inv_retain hi p min) hopstl ?_
      intro bt hbt
      have hbt2 : (m.retain p min).tracked.lookup P = some bt := hbt
      rcases retain_tracked_lookup_sub hi hbt2 with ⟨bt0, hbt0, hsub⟩
      exact fun nd hnd => hb bt0 hbt0 nd (hsub nd hnd)
    | next =>
      rcases nextLoop_inv hi with ⟨res, hres, hinv, -, hsome, hshrink, hafter⟩
      obtain ⟨r, txs', tr', q'⟩ := res
      have hnext : m.next = some (r, ⟨txs', tr', q'⟩) := by
        rw [Mempool.next, hres]
        rfl
      have hred : m.runTrace (Op.next :: tl) =
          (((⟨txs', tr', q'⟩ : Mempool).runTrace tl).1,
            r.toList ++ ((⟨txs', tr', q'⟩ : Mempool).runTrace tl).2) := by
        show (match m.next with
          | some (r, m') => ((m'.runTrace tl).1, r.toList ++ (m'.runTrace tl).2)
          | none => m.runTrace tl) = _
        rw [hnext]
      rw [hred]
      have hinv2 : Inv (⟨txs', tr', q'⟩ : Mempool) := hinv
      have hshrink' : ∀ bt, tr'.lookup P = some bt →
          ∀ nd ∈ bt, lo ≤ nd.1 := by
        intro bt hbt nd hnd
        rcases hshrink P bt hbt with ⟨bt0, hbt0, hsub⟩
        exact hb bt0 hbt0 nd (hsub nd hnd)
      cases hr : r with
      | none =>
        simp only [Option.toList, List.nil_append]
        exact ih hinv2 hopstl hshrink'
      | some d =>
        by_cases hdP : d.public = P
        · -- a transaction of `P` is drained: it bounds everything after it
          have hlo : lo ≤ d.nonce := by
            rcases (hsome d (by rw [hr])).2.2 with ⟨btRest, hlookd⟩
            rw [hdP] at hlookd
            exact hb _ hlookd (d.nonce, d) (List.mem_cons_self _ _)
          have hbound : ∀ bt, tr'.lookup P = some bt →
              ∀ nd ∈ bt, d.nonce + 1 ≤ nd.1 := by
            intro bt hbt nd hnd
            have := hafter d (by rw [hr]) bt (by rw [hdP]; exact hbt) nd hnd
            omega
          rcases ih hinv2 hopstl hbound with ⟨ihlo, ihpw⟩
          have hcond : decide (d.public = P) = true := by simp [hdP]
          rw [show Option.toList (some d) = [d] from rfl,
            List.singleton_append, List.filter_cons, if_pos hcond,
            List.map_cons]
          constructor
          · intro x hx
            rcases List.mem_cons.1 hx with h1 | h1
            · rw [h1]
              exact hlo
            · have := ihlo x h1
              omega
          · refine List.pairwise_cons.2 ⟨?_, ihpw⟩
            intro x hx
            have := ihlo x hx
            omega
        · -- some other account was drained: the `P`-trace is untouched
          have hcond : ¬ decide (d.public = P) = true := by simp [hdP]
          rw [show Option.toList (some d) = [d] from rfl,
            List.singleton_append, List.filter_cons, if_neg hcond]
          exact ih hinv2 hopstl hshrink'

/-- C8 (counterexample): draining an account, re-admitting the same
transaction and draining again returns nonce 0 twice for account 0, so the
nonces returned by successive `next` calls for one account are not strictly
ascending over arbitrary operation sequences. -/
theorem c8_counterexample :
    ((Mempool.empty.runTrace
        [Op.add ⟨0, 0, 0⟩, Op.next, Op.add ⟨0, 0, 0⟩, Op.next]).2.map
      Transaction.nonce = [0, 0]) ∧
    ¬ List.Pairwise (· < ·) ((Mempool.empty.runTrace
        [Op.add ⟨0, 0, 0⟩, Op.next, Op.add ⟨0, 0, 0⟩, Op.next]).2.map
      Transaction.nonce) := by
  refine ⟨?_, ?_⟩ <;> decide

/-- C8 (amended): from any reachable state, over any operation sequence
that admits no transaction for account `P`, the transactions `next` returns
for `P` have strictly ascending nonces. (An intervening `add` for `P` can
re-admit a drained or smaller nonce and break monotonicity.) -/
theorem c8_nonce_monotonic {m : Mempool} (h : Reachable m) (P : PublicKey)
    (ops : List Op) (hops : ∀ tx, Op.add tx ∈ ops → tx.public ≠ P) :
    List.Pairwise (· < ·) (((m.runTrace ops).2.filter
      (fun tx => decide (tx.public = P))).map Transaction.nonce) :=
  (trace_mono ops (inv_reachable h) hops
    (fun _ _ _ _ => Nat.zero_le _)).2

/-- C8 witness: draining the two-transaction account 0 twice yields the
strictly ascending nonces 0, 1. -/
theorem c8_nonce_monotonic_witness :
    List.Pairwise (· < ·)
      ((((Mempool.empty.run [Op.add ⟨0, 0, 0⟩, Op.add ⟨0, 1, 0⟩]).runTrace
          [Op.next, Op.next]).2.filter
        (fun tx => decide (tx.public = 0))).map Transaction.nonce) :=
  c8_nonce_monotonic ⟨[Op.add ⟨0, 0, 0⟩, Op.add ⟨0, 1, 0⟩], rfl⟩ 0
    [Op.next, Op.next] (by
      intro tx htx
      rcases List.mem_cons.1 htx with h1 | h1
      · cases h1
      · rcases List.mem_cons.1 h1 with h2 | h2
        · cases h2
        · exact absurd h2 (List.not_mem_nil _))

/-!
## The event stream claims (C9)
-/

theorem processFrames_terminal_last {D T : Type} (decode : D → Option T) :
    ∀ fs pre (t : Item T) post,
      processFrames decode fs = pre ++ t :: post →
      t.isTerminal = true → post = [] := by
  intro fs
  induction fs with
  | nil =>
    intro pre t post heq _
    cases pre <;> simp [processFrames] at heq
  | cons f rest ih =>
    intro pre t post heq hterm
    cases f with
    | binary d =>
      cases hd : decode d with
      | some e =>
        simp only [processFrames, hd] at heq
        cases pre with
        | nil =>
          simp only [List.nil_append, List.cons.injEq] at heq
          rw [← heq.1] at hterm
          simp [Item.isTerminal] at hterm
        | cons x pre' =>
          simp only [List.cons_append, List.cons.injEq] at heq
          exact ih pre' t post heq.2 hterm
      | none =>
        simp only [processFrames, hd] at heq
        cases pre with
        | nil =>
          simp only [List.nil_append, List.cons.injEq] at heq
          rw [← heq.1] at hterm
          simp [Item.isTerminal] at hterm
        | cons x pre' =>
          simp only [List.cons_append, List.cons.injEq] at heq
          exact ih pre' t post heq.2 hterm
    | close =>
      simp only [processFrames] at heq
      cases pre with
      | nil =>
        simp only [List.nil_append, List.cons.injEq] at heq
        exact heq.2.symm
      | cons x pre' =>
        simp only [List.cons_append, List.cons.injEq] at heq
        exact absurd heq.2.symm (by simp)
    | other =>
      simp only [processFrames] at heq
      exact ih pre t post heq hterm
    | transportError =>
      simp only [processFrames] at heq
      cases pre with
      | nil =>
        simp only [List.nil_append, List.cons.injEq] at heq
        exact heq.2.symm
      | cons x pre' =>
        simp only [List.cons_append, List.cons.injEq] at heq
        exact absurd heq.2.symm (by simp)

theorem processFramesVerified_terminal_last {D T : Type}
    (decode : D → Option T) (verify : T → Bool) :
    ∀ fs pre (t : Item T) post,
      processFramesVerified decode verify fs = pre ++ t :: post →
      t.isTerminal = true → post = [] := by
  intro fs
  induction fs with
  | nil =>
    intro pre t post heq _
    cases pre <;> simp [processFramesVerified] at heq
  | cons f rest ih =>
    intro pre t post heq hterm
    cases f with
    | binary d =>
      have hitem : ∃ it : Item T, it.isTerminal = false ∧
          processFramesVerified decode verify (Frame.binary d :: rest) =
            it :: processFramesVerified decode verify rest := by
        cases hd : decode d with
        | some e =>
          cases hv : verify e with
          | true =>
            exact ⟨Item.ok e, rfl, by
              simp only [processFramesVerified, hd, hv, if_true]⟩
          | false =>
            exact ⟨Item.invalidSignature, rfl, by
              simp only [processFramesVerified, hd, hv, Bool.false_eq_true,
                if_false]⟩
        | none =>
          exact ⟨Item.invalidData, rfl, by
            simp only [processFramesVerified, hd]⟩
      rcases hitem with ⟨it, hit, hstep⟩
      rw [hstep] at heq
      cases pre with
      | nil =>
        simp only [List.nil_append, List.cons.injEq] at heq
        rw [← heq.1] at hterm
        rw [hit] at hterm
        cases hterm
      | cons x pre' =>
        simp only [List.cons_append, List.cons.injEq] at heq
        exact ih pre' t post heq.2 hterm
    | close =>
      simp only [processFramesVerified] at heq
      cases pre with
      | nil =>
        simp only [List.nil_append, List.cons.injEq] at heq
        exact heq.2.symm
      | cons x pre' =>
        simp only [List.cons_append, List.cons.injEq] at heq
        exact absurd heq.2.symm (by simp)
    | other =>
      simp only [processFramesVerified] at heq
      exact ih pre t post heq hterm
    | transportError =>
      simp only [processFramesVerified] at heq
      cases pre with
      | nil =>
        simp only [List.nil_append, List.cons.injEq] at heq
        exact heq.2.symm
      | cons x pre' =>
        simp only [List.cons_append, List.cons.injEq] at heq
        exact absurd heq.2.symm (by simp)

/-- C9: viewing the reader loop as a function from the inbound frame
sequence to the delivered items: a binary frame that fails decoding yields
one `InvalidData` item and processing continues; in verified mode an
unverified event yields one `InvalidSignature` item and processing
continues; a decoded (and verified) event yields its `Ok` item; a close
frame yields exactly `ConnectionClosed` and nothing further; a transport
error yields exactly `Transport` and nothing further; other frames yield
nothing; and a terminal item is always the last item delivered, so `next`
yields `None` forever after it. -/
theorem c9_stream_semantics {D T : Type} (decode : D → Option T)
    (verify : T → Bool) :
    (∀ d rest, decode d = none →
      processFrames decode (Frame.binary d :: rest) =
        Item.invalidData :: processFrames decode rest) ∧
    (∀ d e rest, decode d = some e →
      processFrames decode (Frame.binary d :: rest) =
        Item.ok e :: processFrames decode rest) ∧
    (∀ d rest, decode d = none →
      processFramesVerified decode verify (Frame.binary d :: rest) =
        Item.invalidData :: processFramesVerified decode verify rest) ∧
    (∀ d e rest, decode d = some e → verify e = false →
      processFramesVerified decode verify (Frame.binary d :: rest) =
        Item.invalidSignature :: processFramesVerified decode verify rest) ∧
    (∀ d e rest, decode d = some e → verify e = true →
      processFramesVerified decode verify (Frame.binary d :: rest) =
        Item.ok e :: processFramesVerified decode verify rest) ∧
    (∀ rest : List (Frame D), processFrames decode (Frame.close :: rest) =
      [Item.connectionClosed]) ∧
    (∀ rest : List (Frame D),
      processFramesVerified decode verify (Frame.close :: rest) =
        [Item.connectionClosed]) ∧
    (∀ rest : List (Frame D),
      processFrames decode (Frame.transportError :: rest) = [Item.transport]) ∧
    (∀ rest : List (Frame D),
      processFramesVerified decode verify (Frame.transportError :: rest) =
        [Item.transport]) ∧
    (∀ rest : List (Frame D), processFrames decode (Frame.other :: rest) =
      processFrames decode rest) ∧
    (∀ rest : List (Frame D),
      processFramesVerified decode verify (Frame.other :: rest) =
        processFramesVerified decode verify rest) ∧
    (∀ fs pre (t : Item T) post, processFrames decode fs = pre ++ t :: post →
      t.isTerminal = true → post = []) ∧
    (∀ fs pre (t : Item T) post,
      processFramesVerified decode verify fs = pre ++ t :: post →
      t.isTerminal = true → post = []) := by
  refine ⟨?_, ?_, ?_, ?_, ?_, fun _ => rfl, fun _ => rfl, fun _ => rfl,
    fun _ => rfl, fun _ => rfl, fun _ => rfl,
    processFrames_terminal_last decode,
    processFramesVerified_terminal_last decode verify⟩
  · intro d rest hd
    simp only [processFrames, hd]
  · intro d e rest hd
    simp only [processFrames, hd]
  · intro d rest hd
    simp only [processFramesVerified, hd]
  · intro d e rest hd hv
    simp only [processFramesVerified, hd, hv, Bool.false_eq_true, if_false]
  · intro d e rest hd hv
    simp only [processFramesVerified, hd, hv, if_true]

/-- C9 witness: a concrete frame sequence — an undecodable binary frame
followed by a close frame — yields `InvalidData` then `ConnectionClosed`. -/
theorem c9_stream_semantics_witness :
    processFrames (fun d : Nat => if d = 0 then none else some d)
      (Frame.binary 0 :: [Frame.close]) =
      Item.invalidData :: processFrames
        (fun d : Nat => if d = 0 then none else some d) [Frame.close] :=
  (c9_stream_semantics (fun d : Nat => if d = 0 then none else some d)
    (fun e => decide (e % 2 = 0))).1 0 [Frame.close] (by decide)

end Battleware
